import Mathlib

/-!
# transform-and-count-barcodes

A shallow embedding of `src/transform-and-count-barcodes.cpp` and a verification
of its sequence utilities, record transform, transform detector and streaming
transform-and-count loop.

Conventions of the embedding.

* A `std::string` is a `List Char`.
* A C++ exception is a value of `Exception`; a function that may throw returns
  `Except Exception _`.
* The `int` parameters `offset` and `length` of `FASTQRecord::transform` and the
  `int` loop index of `reverse_complement` only ever hold non-negative values
  below `2^31` in this program (they are string lengths and positions), so they
  are natural numbers here.  The one place where unsigned wrap-around is
  reachable at ordinary sizes, the `size_t` loop bound of `determine_transform`,
  is computed modulo `2^64`.
* A `std::unordered_set` is a duplicate-free list in insertion order, a
  `std::map<int,int>` is a key-sorted association list, a
  `std::unordered_map` is an association list.
* An input stream is its unread characters together with `eofbit` and `failbit`;
  an output stream is the list of characters written so far.
-/

namespace TransformAndCountBarcodes

/-! ## Exceptions -/

/-- The exceptions the program can raise. -/
inductive Exception where
  /-- The `std::out_of_range` thrown by `std::map::at` in the complement lookup. -/
  | out_of_range_map_at
  /-- The `std::out_of_range` thrown by `std::string::substr` when `pos > size()`. -/
  | out_of_range_substr
  /-- The `std::runtime_error` with the message
  "Barcodes in the whitelist are not all the same length." -/
  | runtime_error_barcode_lengths
  /-- Dereferencing `begin()` of an empty `std::unordered_set` (undefined behaviour). -/
  | undefined_begin_of_empty_set
  deriving DecidableEq, Repr

deriving instance DecidableEq for Except

/-! ## Sequence utilities (lines 23-50) -/

/-- The table `nucleotide_complements`, as the partial function `std::map::find`. -/
def nucleotide_complements : Char → Option Char
  | 'A' => some 'T'
  | 'T' => some 'A'
  | 'C' => some 'G'
  | 'G' => some 'C'
  | 'N' => some 'N'
  | 'a' => some 't'
  | 't' => some 'a'
  | 'c' => some 'g'
  | 'g' => some 'c'
  | 'n' => some 'n'
  | _ => none

/-- The call `nucleotide_complements.at(c)`, which throws on a missing key. -/
def nucleotide_complements_at (c : Char) : Except Exception Char :=
  match nucleotide_complements c with
  | some d => .ok d
  | none => .error .out_of_range_map_at

/-- The loop of `complement`: append the complement of each character of `seq`,
front to back, to the accumulator `complemented`. -/
def complement.loop : List Char → List Char → Except Exception (List Char)
  | [], complemented => .ok complemented
  | it :: seq, complemented =>
    match nucleotide_complements_at it with
    | .error e => .error e
    | .ok d => complement.loop seq (complemented ++ [d])

/-- The function `complement`. -/
def complement (seq : List Char) : Except Exception (List Char) :=
  complement.loop seq []

/-- The loop of `reverse_complement`: the index `i` runs from `seq.length() - 1`
down to `0`; `rev` holds the characters `seq[i], seq[i-1], ..., seq[0]` still to
be visited. -/
def reverse_complement.loop : List Char → List Char → Except Exception (List Char)
  | [], rc => .ok rc
  | c :: rev, rc =>
    match nucleotide_complements_at c with
    | .error e => .error e
    | .ok d => reverse_complement.loop rev (rc ++ [d])

/-- The function `reverse_complement`. -/
def reverse_complement (seq : List Char) : Except Exception (List Char) :=
  reverse_complement.loop seq.reverse []

/-- The recognised alphabet: the keys of `nucleotide_complements`. -/
def is_nucleotide (c : Char) : Prop :=
  c ∈ ['A', 'T', 'C', 'G', 'N', 'a', 't', 'c', 'g', 'n']

instance (c : Char) : Decidable (is_nucleotide c) := by
  unfold is_nucleotide; infer_instance

/-- The total complement on characters used to state results: the table on the
alphabet, the identity elsewhere. -/
def complement_char (c : Char) : Char :=
  (nucleotide_complements c).getD c

/-! ## Record model (lines 86-118) -/

/-- The call `s.substr(pos, len)`: throws when `pos > s.size()`, otherwise the
characters from `pos` on, at most `len` of them. -/
def substr (s : List Char) (pos len : Nat) : Except Exception (List Char) :=
  if pos > s.length then .error .out_of_range_substr
  else .ok ((s.drop pos).take len)

/-- The class `FASTQRecord`. -/
structure FASTQRecord where
  name : List Char
  comment : List Char
  sequence : List Char
  quality : List Char
  deriving DecidableEq, Repr

/-- The method `FASTQRecord::transform`; the result is the record after the call. -/
def FASTQRecord.transform (record : FASTQRecord) (offset length : Nat) (rc : Bool) :
    Except Exception FASTQRecord :=
  match substr record.sequence offset length with
  | .error e => .error e
  | .ok sequence =>
    match substr record.quality offset length with
    | .error e => .error e
    | .ok quality =>
      if rc then
        match reverse_complement sequence with
        | .error e => .error e
        | .ok sequence =>
          .ok { record with sequence := sequence, quality := quality.reverse }
      else
        .ok { record with sequence := sequence, quality := quality }

/-- The stream insertion `os << record`: the four fields, each followed by a newline. -/
def operator_insert (os : List Char) (record : FASTQRecord) : List Char :=
  os ++ record.name ++ ['\n'] ++ record.sequence ++ ['\n']
     ++ record.comment ++ ['\n'] ++ record.quality ++ ['\n']

/-- An input stream: the unread characters and the two state bits the program reads. -/
structure istream where
  buf : List Char
  eofbit : Bool
  failbit : Bool
  deriving DecidableEq, Repr

/-- A freshly opened stream over the given contents. -/
def istream.open (contents : List Char) : istream :=
  { buf := contents, eofbit := false, failbit := false }

/-- The test `is.good()`. -/
def istream.good (is : istream) : Bool := !is.eofbit && !is.failbit

/-- The test `is.fail()`; a stream converts to `true` in a condition when this is false. -/
def istream.fail (is : istream) : Bool := is.failbit

/-- Extraction of characters by `std::getline`: the characters before the first
newline and, when a newline was found and consumed, the characters after it;
`none` when the end of the input was reached first. -/
def getline.extract : List Char → List Char × Option (List Char)
  | [] => ([], none)
  | c :: cs =>
    if c = '\n' then ([], some cs)
    else ((getline.extract cs).1.cons c, (getline.extract cs).2)

/-- The call `std::getline(is, str)`; the result is the stream and `str` after the call.
A stream that is not good only gets `failbit`; otherwise characters are extracted up
to and including the next newline, `eofbit` is set when the input ends first, and
`failbit` is set when nothing at all was extracted. -/
def getline (is : istream) (str : List Char) : istream × List Char :=
  if is.good then
    match getline.extract is.buf with
    | (line, some rest) => ({ is with buf := rest }, line)
    | (line, none) => ({ buf := [], eofbit := true, failbit := line.isEmpty }, line)
  else ({ is with failbit := true }, str)

/-- The stream extraction `is >> record`: four calls of `getline`. -/
def operator_extract (is : istream) (record : FASTQRecord) : istream × FASTQRecord :=
  let r1 := getline is record.name
  let r2 := getline r1.1 record.sequence
  let r3 := getline r2.1 record.comment
  let r4 := getline r3.1 record.quality
  (r4.1, { name := r1.2, comment := r3.2, sequence := r2.2, quality := r4.2 })

/-! ## Reading the inputs (lines 120-161) -/

/-- The loop `while (in >> record)` of `read_fastq`.  The first argument bounds the
number of iterations; `read_fastq` passes one more than the number of unread
characters, which is never exhausted because every successful extraction consumes
at least one character. -/
def read_fastq.loop (first_n : Int) :
    Nat → istream → FASTQRecord → List FASTQRecord → Nat → List FASTQRecord
  | 0, _, _, records, _ => records
  | fuel + 1, is, record, records, record_count =>
    let r := operator_extract is record
    if r.1.fail then records
    else if first_n ≠ -1 ∧ ((record_count + 1 : Nat) : Int) > first_n then records
    else read_fastq.loop first_n fuel r.1 r.2 (records ++ [r.2]) (record_count + 1)

/-- The function `read_fastq` on the (decompressed) contents of the file. -/
def read_fastq (contents : List Char) (first_n : Int) : List FASTQRecord :=
  read_fastq.loop first_n (contents.length + 1) (istream.open contents)
    { name := [], comment := [], sequence := [], quality := [] } [] 0

/-- The call `s.insert(x)` on a `std::unordered_set`. -/
def unordered_set_insert {α : Type} [DecidableEq α] (s : List α) (x : α) : List α :=
  if x ∈ s then s else s ++ [x]

/-- The loop `while (std::getline(whitelist_file, line))` of `read_whitelist`, with
the same bound on the number of iterations as in `read_fastq.loop`. -/
def read_whitelist.loop : Nat → istream → List Char → List (List Char) → List (List Char)
  | 0, _, _, whitelist_barcodes => whitelist_barcodes
  | fuel + 1, is, line, whitelist_barcodes =>
    let r := getline is line
    if r.1.fail then whitelist_barcodes
    else read_whitelist.loop fuel r.1 r.2 (unordered_set_insert whitelist_barcodes r.2)

/-- The function `read_whitelist` on the contents of the file. -/
def read_whitelist (contents : List Char) : List (List Char) :=
  read_whitelist.loop (contents.length + 1) (istream.open contents) [] []

/-! ## Transform detector (lines 164-249) -/

/-- The loop of lines 173-175: insert the reverse complement of every whitelist
barcode into `whitelist_barcodes_rc`. -/
def determine_transform.rc_set :
    List (List Char) → List (List Char) → Except Exception (List (List Char))
  | [], whitelist_barcodes_rc => .ok whitelist_barcodes_rc
  | barcode :: rest, whitelist_barcodes_rc =>
    match reverse_complement barcode with
    | .error e => .error e
    | .ok r => determine_transform.rc_set rest (unordered_set_insert whitelist_barcodes_rc r)

/-- The set `barcode_lengths` of lines 183-187. -/
def determine_transform.barcode_lengths (whitelist_barcodes : List (List Char)) : List Nat :=
  whitelist_barcodes.foldl (fun s barcode => unordered_set_insert s barcode.length) []

/-- Lines 189-193: throw when there is more than one length, otherwise take
`*barcode_lengths.begin()`. -/
def determine_transform.barcode_length (whitelist_barcodes : List (List Char)) :
    Except Exception Nat :=
  if (determine_transform.barcode_lengths whitelist_barcodes).length > 1 then
    .error .runtime_error_barcode_lengths
  else
    match determine_transform.barcode_lengths whitelist_barcodes with
    | [] => .error .undefined_begin_of_empty_set
    | l :: _ => .ok l

/-- The `size_t` value of `record.sequence.size() - barcode_length + 1`, computed
modulo `2^64`: the bound of the loop of line 212. -/
def determine_transform.loop_bound (size barcode_length : Nat) : Nat :=
  ((size + (2 ^ 64 - barcode_length % 2 ^ 64)) % 2 ^ 64 + 1) % 2 ^ 64

/-- The statement `m[key]++` on a `std::map<int, int>`, kept sorted by key. -/
def map_increment : List (Nat × Nat) → Nat → List (Nat × Nat)
  | [], key => [(key, 1)]
  | (k, v) :: m, key =>
    if key < k then (key, 1) :: (k, v) :: m
    else if key = k then (k, v + 1) :: m
    else (k, v) :: map_increment m key

/-- The value stored under `key` in a `std::map<int, int>`, `0` when there is none. -/
def map_count : List (Nat × Nat) → Nat → Nat
  | [], _ => 0
  | (k, v) :: m, key => if key = k then v else map_count m key

/-- The inner loop of lines 212-220 for one record, from `offset` on; the pair
holds `match_counts` and `rc_match_counts`.  The first argument bounds the number
of iterations; `scan_record` passes `sequence.size() + 2`, which is never
exhausted because `substr` throws as soon as `offset` exceeds the size. -/
def determine_transform.scan_offsets (whitelist_barcodes whitelist_barcodes_rc : List (List Char))
    (barcode_length : Nat) (sequence : List Char) :
    Nat → Nat → List (Nat × Nat) × List (Nat × Nat) →
      Except Exception (List (Nat × Nat) × List (Nat × Nat))
  | 0, _, counts => .ok counts
  | fuel + 1, offset, counts =>
    if offset < determine_transform.loop_bound sequence.length barcode_length then
      match substr sequence offset barcode_length with
      | .error e => .error e
      | .ok subsequence =>
        determine_transform.scan_offsets whitelist_barcodes whitelist_barcodes_rc
          barcode_length sequence fuel (offset + 1)
          (if subsequence ∈ whitelist_barcodes then map_increment counts.1 offset else counts.1,
           if subsequence ∈ whitelist_barcodes_rc then map_increment counts.2 offset
           else counts.2)
    else .ok counts

/-- The body of the loop of line 211 for one record. -/
def determine_transform.scan_record (whitelist_barcodes whitelist_barcodes_rc : List (List Char))
    (barcode_length : Nat) (record : FASTQRecord)
    (counts : List (Nat × Nat) × List (Nat × Nat)) :
    Except Exception (List (Nat × Nat) × List (Nat × Nat)) :=
  determine_transform.scan_offsets whitelist_barcodes whitelist_barcodes_rc barcode_length
    record.sequence (record.sequence.length + 2) 0 counts

/-- The loop of lines 211-221 over the sampled records. -/
def determine_transform.scan_records (whitelist_barcodes whitelist_barcodes_rc : List (List Char))
    (barcode_length : Nat) :
    List FASTQRecord → List (Nat × Nat) × List (Nat × Nat) →
      Except Exception (List (Nat × Nat) × List (Nat × Nat))
  | [], counts => .ok counts
  | record :: records, counts =>
    match determine_transform.scan_record whitelist_barcodes whitelist_barcodes_rc
        barcode_length record counts with
    | .error e => .error e
    | .ok counts =>
      determine_transform.scan_records whitelist_barcodes whitelist_barcodes_rc
        barcode_length records counts

/-- The variables `best_offset`, `best_rc` and `best_match_count`. -/
structure Best where
  best_offset : Nat
  best_rc : Bool
  best_match_count : Nat
  deriving DecidableEq, Repr

/-- The loops of lines 223-229 (`rc = false`, over `match_counts`) and 231-237
(`rc = true`, over `rc_match_counts`): entries are visited in ascending key order
and replace the best only on a strictly greater count. -/
def determine_transform.select (rc : Bool) : List (Nat × Nat) → Best → Best
  | [], best => best
  | it :: m, best =>
    if it.2 > best.best_match_count then
      determine_transform.select rc m
        { best_offset := it.1, best_rc := rc, best_match_count := it.2 }
    else determine_transform.select rc m best

/-- The value of the three variables after both selection loops. -/
def determine_transform.best (counts : List (Nat × Nat) × List (Nat × Nat)) : Best :=
  determine_transform.select true counts.2
    (determine_transform.select false counts.1
      { best_offset := 0, best_rc := false, best_match_count := 0 })

/-- Lines 170-221 of `determine_transform` on the contents of the whitelist file and
of the barcode read file: the value of `barcode_length` and the maps `match_counts`
and `rc_match_counts` after all sampled records have been scanned. -/
def determine_transform.scan (whitelist_contents barcode_fastq_contents : List Char)
    (check_first : Int) :
    Except Exception (Nat × (List (Nat × Nat) × List (Nat × Nat))) :=
  match determine_transform.rc_set (read_whitelist whitelist_contents) [] with
  | .error e => .error e
  | .ok whitelist_barcodes_rc =>
    match determine_transform.barcode_length (read_whitelist whitelist_contents) with
    | .error e => .error e
    | .ok barcode_length =>
      match determine_transform.scan_records (read_whitelist whitelist_contents)
          whitelist_barcodes_rc barcode_length
          (read_fastq barcode_fastq_contents check_first) ([], []) with
      | .error e => .error e
      | .ok counts => .ok (barcode_length, counts)

/-- The function `determine_transform`: the scan of lines 170-221, then the two
selection loops.  The result is the returned vector
`{best_offset, barcode_length, best_rc_bool}`. -/
def determine_transform (whitelist_contents barcode_fastq_contents : List Char)
    (check_first : Int) : Except Exception (Nat × Nat × Nat) :=
  match determine_transform.scan whitelist_contents barcode_fastq_contents check_first with
  | .error e => .error e
  | .ok scanned =>
    .ok ((determine_transform.best scanned.2).best_offset, scanned.1,
         if (determine_transform.best scanned.2).best_rc then 1 else 0)

/-! ## Streaming transform and count (lines 315-370) -/

/-- The statement `counts[key]++` on the `std::unordered_map` of barcode counts. -/
def unordered_map_increment :
    List (List Char × Nat) → List Char → List (List Char × Nat)
  | [], key => [(key, 1)]
  | (k, v) :: m, key =>
    if key = k then (k, v + 1) :: m else (k, v) :: unordered_map_increment m key

/-- The loop of lines 353-361; the result is the text written to `out` and the table
`counts`.  The first argument bounds the number of iterations as in
`read_fastq.loop`. -/
def main.loop (best_offset barcode_length : Nat) (best_rc : Bool) :
    Nat → istream → FASTQRecord → List (List Char × Nat) → List Char →
      Except Exception (List Char × List (List Char × Nat))
  | 0, _, _, counts, out => .ok (out, counts)
  | fuel + 1, is, record, counts, out =>
    let r := operator_extract is record
    if r.1.fail then .ok (out, counts)
    else
      match r.2.transform best_offset barcode_length best_rc with
      | .error e => .error e
      | .ok record =>
        main.loop best_offset barcode_length best_rc fuel r.1 record
          (unordered_map_increment counts record.sequence) (operator_insert out record)

/-- Lines 349-361 of `main` for a given transform: the pass over the whole input. -/
def main.transform_records (best_offset barcode_length : Nat) (best_rc : Bool)
    (input_contents : List Char) : Except Exception (List Char × List (List Char × Nat)) :=
  main.loop best_offset barcode_length best_rc (input_contents.length + 1)
    (istream.open input_contents)
    { name := [], comment := [], sequence := [], quality := [] } [] []

/-- The function `main` from line 315 on: detect the transform on the first
10000 records, then transform and count all records. -/
def main (input_contents whitelist_contents : List Char) :
    Except Exception (List Char × List (List Char × Nat)) :=
  match determine_transform whitelist_contents input_contents 10000 with
  | .error e => .error e
  | .ok best_transform =>
    main.transform_records best_transform.1 best_transform.2.1
      (best_transform.2.2 != 0) input_contents

/-! ## Notions used to state the results -/

/-- The slice `s[first, last)`: the characters at the positions `first ≤ i < last`. -/
def slice (s : List Char) (first last : Nat) : List Char :=
  (s.take last).drop first

/-- The text of a file with the given lines, each terminated by a newline. -/
def file_of_lines : List (List Char) → List Char
  | [] => []
  | line :: lines => line ++ '\n' :: file_of_lines lines

/-- The text of a FASTQ file holding the given records: what `operator_insert` writes
for each of them in turn. -/
def file_of_records (records : List FASTQRecord) : List Char :=
  records.foldl operator_insert []

/-- A record none of whose four fields contains a newline. -/
def FASTQRecord.newline_free (record : FASTQRecord) : Prop :=
  '\n' ∉ record.name ∧ '\n' ∉ record.sequence ∧ '\n' ∉ record.comment ∧
    '\n' ∉ record.quality

instance (record : FASTQRecord) : Decidable record.newline_free := by
  unfold FASTQRecord.newline_free; infer_instance

/-- The number `count` is the maximum, over all offsets, of the match count stored in
the map `m`: no offset has a greater count and some offset has this count. -/
def is_max_count (m : List (Nat × Nat)) (count : Nat) : Prop :=
  (∀ offset, map_count m offset ≤ count) ∧ ∃ offset, map_count m offset = count

/-- The greatest count stored in a map from offsets to counts, `0` for an empty map. -/
def max_value : List (Nat × Nat) → Nat
  | [] => 0
  | (_, v) :: m => max v (max_value m)

/-- The entry of `key` in the `std::unordered_map` of barcode counts, if there is one. -/
def unordered_map_find : List (List Char × Nat) → List Char → Option Nat
  | [], _ => none
  | (k, v) :: m, key => if key = k then some v else unordered_map_find m key

/-! ## Scenarios -/

/-- Two input records, with the sequences "XAACXX" and "YAACYY". -/
def pipeline_scenario_records : List FASTQRecord :=
  [{ name := "@r1".toList, comment := "+".toList,
     sequence := "XAACXX".toList, quality := "abcdef".toList },
   { name := "@r2".toList, comment := "+".toList,
     sequence := "YAACYY".toList, quality := "ghijkl".toList }]

/-- The records of `pipeline_scenario_records` after `transform(1, 3, false)`. -/
def pipeline_scenario_transformed : List FASTQRecord :=
  [{ name := "@r1".toList, comment := "+".toList,
     sequence := "AAC".toList, quality := "bcd".toList },
   { name := "@r2".toList, comment := "+".toList,
     sequence := "AAC".toList, quality := "hij".toList }]

/-- The records of `pipeline_scenario_records` after `transform(2, 2, true)`. -/
def pipeline_scenario_reversed : List FASTQRecord :=
  [{ name := "@r1".toList, comment := "+".toList,
     sequence := "GT".toList, quality := "dc".toList },
   { name := "@r2".toList, comment := "+".toList,
     sequence := "GT".toList, quality := "ji".toList }]

/-- The contents of a whitelist file with the single barcode "AACC". -/
def whitelist_scenario : List Char := "AACC\n".toList

/-- The contents of a read file with one record, whose sequence "NNAACCNN" holds the
barcode "AACC" at offset 2. -/
def detection_scenario_forward : List Char := "@r\nNNAACCNN\n+\nIIIIIIII\n".toList

/-- The contents of a read file with one record, whose sequence "NNGGTTNN" holds the
reverse complement "GGTT" of the barcode at offset 2. -/
def detection_scenario_reverse : List Char := "@r\nNNGGTTNN\n+\nIIIIIIII\n".toList

/-- The contents of a read file with one record, whose sequence "AACCGGTT" holds the
barcode at offset 0 and its reverse complement at offset 4. -/
def detection_scenario_tie : List Char := "@r\nAACCGGTT\n+\nIIIIIIII\n".toList

/-- The contents of a read file with one record, whose sequence "NN" is two characters
shorter than the barcode. -/
def detection_scenario_short : List Char := "@r\nNN\n+\nII\n".toList

/-- The contents of a read file with two records, with the sequences "NNNNNN" and
"ACG", none of whose windows is "AACC" or "GGTT". -/
def detection_scenario_no_match : List Char :=
  "@r1\nNNNNNN\n+\nIIIIII\n@r2\nACG\n+\nIII\n".toList

/-- The sum of all counts in the table of barcode counts. -/
def counts_sum : List (List Char × Nat) → Nat
  | [] => 0
  | (_, v) :: m => v + counts_sum m

/-- The records held by a list of lines: every four consecutive lines are the name,
the sequence, the comment and the quality of one record, and fewer than four lines
at the end make no record. -/
def records_of_lines : List (List Char) → List FASTQRecord
  | name :: sequence :: comment :: quality :: rest =>
    { name := name, comment := comment, sequence := sequence, quality := quality }
      :: records_of_lines rest
  | _ => []

/-- The body of the loop of `main` applied to a list of records in turn: transform,
count, write; stop at the first exception. -/
def transform_and_count (best_offset barcode_length : Nat) (best_rc : Bool) :
    List FASTQRecord → List (List Char × Nat) → List Char →
      Except Exception (List Char × List (List Char × Nat))
  | [], counts, out => .ok (out, counts)
  | r :: rs, counts, out =>
    match r.transform best_offset barcode_length best_rc with
    | .error e => .error e
    | .ok record =>
      transform_and_count best_offset barcode_length best_rc rs
        (unordered_map_increment counts record.sequence) (operator_insert out record)

/-- Six lines: one complete record followed by the first two lines of another. -/
def six_lines_scenario : List (List Char) :=
  ["@r1".toList, "NNAACCNN".toList, "+".toList, "IIIIIIII".toList, "@r2".toList,
   "NNAA".toList]

/-- The contents of a whitelist file with the single barcode "AATT", which is its own
reverse complement. -/
def palindrome_whitelist_scenario : List Char := "AATT\n".toList

/-- The contents of a read file with one record, whose sequence "NAATTN" holds "AATT"
at offset 1. -/
def palindrome_reads_scenario : List Char := "@r\nNAATTN\n+\nIIIIII\n".toList

/-- The contents of a read file with one record, whose sequence "AACCAACC" holds the
barcode "AACC" at the offsets 0 and 4. -/
def detection_scenario_twice : List Char := "@r\nAACCAACC\n+\nIIIIIIII\n".toList

/-- Whether `transform(offset, length, rc)` succeeds on the record and leaves a
sequence that is a member of the whitelist. -/
def transform_yields_member (whitelist : List (List Char)) (offset length : Nat) (rc : Bool)
    (record : FASTQRecord) : Bool :=
  match record.transform offset length rc with
  | .ok out => decide (out.sequence ∈ whitelist)
  | .error _ => false

/-- The contents of a read file with one record, whose sequence "NNAACCNN" holds the
barcode at offset 2 and whose quality line "I" has a single character. -/
def detection_scenario_short_quality : List Char := "@r\nNNAACCNN\n+\nI\n".toList

/-! # Theorems -/

/-! ## Sequence utilities -/

theorem nucleotide_complements_of_is_nucleotide {c : Char} (h : is_nucleotide c) :
    nucleotide_complements c = some (complement_char c) ∧ is_nucleotide (complement_char c)
      ∧ complement_char (complement_char c) = c := by
  simp only [is_nucleotide, List.mem_cons, List.mem_singleton, List.not_mem_nil, or_false] at h
  rcases h with h | h | h | h | h | h | h | h | h | h <;> subst h <;> decide

theorem nucleotide_complements_eq_none {c : Char} (h : ¬ is_nucleotide c) :
    nucleotide_complements c = none := by
  simp only [is_nucleotide, List.mem_cons, List.mem_singleton, List.not_mem_nil, or_false,
    not_or] at h
  obtain ⟨h1, h2, h3, h4, h5, h6, h7, h8, h9, h10⟩ := h
  unfold nucleotide_complements
  split <;> first | rfl | contradiction

theorem nucleotide_complements_at_ok {c : Char} (h : is_nucleotide c) :
    nucleotide_complements_at c = .ok (complement_char c) := by
  simp [nucleotide_complements_at, (nucleotide_complements_of_is_nucleotide h).1]

theorem nucleotide_complements_at_error {c : Char} (h : ¬ is_nucleotide c) :
    nucleotide_complements_at c = .error .out_of_range_map_at := by
  simp [nucleotide_complements_at, nucleotide_complements_eq_none h]

theorem complement_loop_ok (seq : List Char) (h : ∀ c ∈ seq, is_nucleotide c)
    (acc : List Char) : complement.loop seq acc = .ok (acc ++ seq.map complement_char) := by
  induction seq generalizing acc with
  | nil => simp [complement.loop]
  | cons c cs ih =>
    have hc := nucleotide_complements_at_ok (h c (List.mem_cons_self _ _))
    simp only [complement.loop, hc]
    rw [ih (fun d hd => h d (List.mem_cons_of_mem _ hd))]
    simp

theorem complement_loop_error (seq : List Char) (h : ∃ c ∈ seq, ¬ is_nucleotide c)
    (acc : List Char) : complement.loop seq acc = .error .out_of_range_map_at := by
  induction seq generalizing acc with
  | nil => simp at h
  | cons c cs ih =>
    by_cases hc : is_nucleotide c
    · simp only [complement.loop, nucleotide_complements_at_ok hc]
      apply ih
      obtain ⟨d, hd, hnd⟩ := h
      rcases List.mem_cons.mp hd with rfl | hd
      · exact absurd hc hnd
      · exact ⟨d, hd, hnd⟩
    · simp only [complement.loop, nucleotide_complements_at_error hc]

theorem reverse_complement_loop_eq (rev acc : List Char) :
    reverse_complement.loop rev acc = complement.loop rev acc := by
  induction rev generalizing acc with
  | nil => rfl
  | cons c cs ih =>
    simp only [reverse_complement.loop, complement.loop]
    cases nucleotide_complements_at c with
    | error e => rfl
    | ok d => exact ih _

theorem reverse_complement_ok (seq : List Char) (h : ∀ c ∈ seq, is_nucleotide c) :
    reverse_complement seq = .ok (seq.reverse.map complement_char) := by
  unfold reverse_complement
  rw [reverse_complement_loop_eq, complement_loop_ok]
  · simp
  · intro c hc
    exact h c (List.mem_reverse.mp hc)

theorem reverse_complement_error (seq : List Char) (h : ∃ c ∈ seq, ¬ is_nucleotide c) :
    reverse_complement seq = .error .out_of_range_map_at := by
  unfold reverse_complement
  rw [reverse_complement_loop_eq]
  apply complement_loop_error
  obtain ⟨c, hc, hn⟩ := h
  exact ⟨c, List.mem_reverse.mpr hc, hn⟩

theorem map_complement_char_involutive (seq : List Char) (h : ∀ c ∈ seq, is_nucleotide c) :
    (seq.map complement_char).map complement_char = seq := by
  induction seq with
  | nil => rfl
  | cons c cs ih =>
    simp only [List.map_cons]
    rw [(nucleotide_complements_of_is_nucleotide (h c (List.mem_cons_self _ _))).2.2,
      ih (fun d hd => h d (List.mem_cons_of_mem _ hd))]

theorem reverse_complement_eq_ok {s t : List Char} (h : reverse_complement s = .ok t) :
    (∀ c ∈ s, is_nucleotide c) ∧ t = s.reverse.map complement_char := by
  by_cases hv : ∀ c ∈ s, is_nucleotide c
  · rw [reverse_complement_ok s hv] at h
    exact ⟨hv, by cases h; rfl⟩
  · push_neg at hv
    rw [reverse_complement_error s hv] at h
    cases h

theorem substr_ok {s : List Char} {pos : Nat} (h : pos ≤ s.length) (len : Nat) :
    substr s pos len = .ok ((s.drop pos).take len) := by
  simp [substr, Nat.not_lt.mpr h]

theorem substr_error {s : List Char} {pos : Nat} (h : s.length < pos) (len : Nat) :
    substr s pos len = .error .out_of_range_substr := by
  simp [substr, h]

theorem drop_take_eq_slice (s : List Char) (offset length : Nat) :
    (s.drop offset).take length = slice s offset (offset + length) := by
  simp [slice, List.drop_take]

theorem slice_length {s : List Char} {offset length : Nat} (h : offset + length ≤ s.length) :
    (slice s offset (offset + length)).length = length := by
  simp [slice]
  omega

theorem slice_getElem? (s : List Char) (offset length i : Nat) (hi : i < length) :
    (slice s offset (offset + length))[i]? = s[offset + i]? := by
  rw [← drop_take_eq_slice, List.getElem?_take_of_lt hi, List.getElem?_drop]

theorem transform_forward {record : FASTQRecord} {offset : Nat}
    (h1 : offset ≤ record.sequence.length) (h2 : offset ≤ record.quality.length)
    (length : Nat) :
    record.transform offset length false =
      .ok { record with sequence := (record.sequence.drop offset).take length,
                        quality := (record.quality.drop offset).take length } := by
  simp [FASTQRecord.transform, substr_ok h1, substr_ok h2]

theorem transform_reverse {record : FASTQRecord} {offset : Nat}
    (h1 : offset ≤ record.sequence.length) (h2 : offset ≤ record.quality.length)
    (length : Nat) :
    record.transform offset length true =
      match reverse_complement ((record.sequence.drop offset).take length) with
      | .error e => .error e
      | .ok sequence =>
        .ok { record with sequence := sequence,
                          quality := ((record.quality.drop offset).take length).reverse } := by
  simp [FASTQRecord.transform, substr_ok h1, substr_ok h2]

/-- C3: when `offset + length` is within the sequence, whose length is that of the
quality string, `transform` without `rc` leaves the slices `[offset, offset+length)` of
sequence and quality; with `rc` it leaves the reverse complement of the sequence slice
and the reversed quality slice (and throws exactly when the reverse complement does),
so that output base `i` is the complement of input base `offset+length-1-i` and output
quality `i` is input quality `offset+length-1-i`. -/
theorem transform_slice_reverse_complement (record : FASTQRecord) (offset length : Nat)
    (h : offset + length ≤ record.sequence.length)
    (hq : record.sequence.length = record.quality.length) :
    record.transform offset length false =
      .ok { record with sequence := slice record.sequence offset (offset + length),
                        quality := slice record.quality offset (offset + length) } ∧
    record.transform offset length true =
      (match reverse_complement (slice record.sequence offset (offset + length)) with
       | .error e => .error e
       | .ok sequence =>
         .ok { record with
                 sequence := sequence,
                 quality := (slice record.quality offset (offset + length)).reverse }) ∧
    ((∀ c ∈ slice record.sequence offset (offset + length), is_nucleotide c) →
      ∃ out, record.transform offset length true = .ok out) ∧
    (∀ out, record.transform offset length true = .ok out →
      out.sequence.length = length ∧ out.quality.length = length ∧
      ∀ i, i < length →
        (record.sequence[offset + length - 1 - i]?).bind nucleotide_complements
            = out.sequence[i]? ∧
        record.quality[offset + length - 1 - i]? = out.quality[i]?) := by
  have h1 : offset ≤ record.sequence.length := by omega
  have h2 : offset ≤ record.quality.length := by omega
  have hT := transform_reverse h1 h2 length
  rw [drop_take_eq_slice, drop_take_eq_slice] at hT
  refine ⟨?_, hT, ?_, ?_⟩
  · rw [transform_forward h1 h2, drop_take_eq_slice, drop_take_eq_slice]
  · intro hv
    rw [hT, reverse_complement_ok _ hv]
    exact ⟨_, rfl⟩
  · intro out hout
    rw [hT] at hout
    cases hrc : reverse_complement (slice record.sequence offset (offset + length)) with
    | error e => rw [hrc] at hout; cases hout
    | ok t =>
      rw [hrc] at hout
      obtain ⟨hv, ht⟩ := reverse_complement_eq_ok hrc
      have hout2 : out = { record with
          sequence := t,
          quality := (slice record.quality offset (offset + length)).reverse } := by
        cases hout; rfl
      subst hout2
      subst ht
      have hl : (slice record.sequence offset (offset + length)).length = length :=
        slice_length h
      have hlq : (slice record.quality offset (offset + length)).length = length :=
        slice_length (by omega)
      refine ⟨by simp [hl], by simp [hlq], ?_⟩
      intro i hi
      have hidx : length - 1 - i < length := by omega
      constructor
      · simp only [List.getElem?_map]
        rw [List.getElem?_reverse (by omega), hl, slice_getElem? _ _ _ _ hidx]
        have he : offset + (length - 1 - i) = offset + length - 1 - i := by omega
        rw [he]
        cases hc : record.sequence[offset + length - 1 - i]? with
        | none => rfl
        | some c =>
          have hmem : c ∈ slice record.sequence offset (offset + length) := by
            rw [List.mem_iff_getElem?]
            exact ⟨length - 1 - i, by rw [slice_getElem? _ _ _ _ hidx, he, hc]⟩
          simp [(nucleotide_complements_of_is_nucleotide (hv c hmem)).1]
      · show _ = (slice record.quality offset (offset + length)).reverse[i]?
        rw [List.getElem?_reverse (by omega), hlq, slice_getElem? _ _ _ _ hidx]
        congr 1
        omega

theorem transform_slice_reverse_complement_witness :
    (1 + 3 ≤ "NGGTTN".toList.length ∧ "NGGTTN".toList.length = "abcdef".toList.length) ∧
    (FASTQRecord.mk "@r".toList "+".toList "NGGTTN".toList "abcdef".toList).transform 1 3 true
      = .ok (FASTQRecord.mk "@r".toList "+".toList "ACC".toList "dcb".toList) :=
  ⟨by decide,
   (transform_slice_reverse_complement
      (FASTQRecord.mk "@r".toList "+".toList "NGGTTN".toList "abcdef".toList) 1 3
      (by decide) (by decide)).2.1.trans (by rfl)⟩

/-- C4 (counterexample): with `offset` beyond the end of the sequence the slicing step
fails: on sequence "AC", quality "II", the call `transform(3, 1, false)` throws
`std::out_of_range` from `substr`. -/
theorem transform_offset_beyond_end_throws :
    (FASTQRecord.mk "@r".toList "+".toList "AC".toList "II".toList).transform 3 1 false
      = .error .out_of_range_substr := rfl

/-- C4 (amended): when `offset + length` exceeds the sequence length and `offset` is at
most the length of the sequence and of the quality string, slicing does not fail and
leaves the suffix of the sequence starting at `offset` (and the quality from `offset`
on, at most `length` characters); when `offset` is beyond the end of the sequence or
of the quality string, `transform` throws `std::out_of_range`. -/
theorem transform_slicing_clamps (record : FASTQRecord) (offset length : Nat) (rc : Bool) :
    (offset ≤ record.sequence.length → offset ≤ record.quality.length →
      record.sequence.length < offset + length →
        substr record.sequence offset length = .ok (record.sequence.drop offset) ∧
        substr record.quality offset length = .ok ((record.quality.drop offset).take length) ∧
        record.transform offset length false =
          .ok { record with sequence := record.sequence.drop offset,
                            quality := (record.quality.drop offset).take length } ∧
        record.transform offset length rc ≠ .error .out_of_range_substr) ∧
    (record.sequence.length < offset ∨ record.quality.length < offset →
      record.transform offset length rc = .error .out_of_range_substr) := by
  constructor
  · intro h1 h2 h3
    have hd : (record.sequence.drop offset).take length = record.sequence.drop offset :=
      List.take_of_length_le (by simp; omega)
    refine ⟨by rw [substr_ok h1, hd], substr_ok h2 _, by rw [transform_forward h1 h2, hd], ?_⟩
    cases rc with
    | false => rw [transform_forward h1 h2]; simp
    | true =>
      rw [transform_reverse h1 h2]
      by_cases hv : ∀ c ∈ (record.sequence.drop offset).take length, is_nucleotide c
      · rw [reverse_complement_ok _ hv]; simp
      · push_neg at hv
        rw [reverse_complement_error _ hv]; simp
  · intro h
    by_cases h1 : record.sequence.length < offset
    · simp [FASTQRecord.transform, substr_error h1]
    · have h2 : record.quality.length < offset := by tauto
      simp [FASTQRecord.transform, substr_ok (Nat.not_lt.mp h1), substr_error h2]

theorem transform_slicing_clamps_witness :
    (FASTQRecord.mk "@r".toList "+".toList "ACGT".toList "IJKL".toList).transform 2 5 false
      = .ok (FASTQRecord.mk "@r".toList "+".toList "GT".toList "KL".toList) ∧
    (FASTQRecord.mk "@r".toList "+".toList "ACGT".toList "IJKL".toList).transform 5 2 true
      = .error .out_of_range_substr :=
  ⟨((transform_slicing_clamps
      (FASTQRecord.mk "@r".toList "+".toList "ACGT".toList "IJKL".toList) 2 5 false).1
      (by decide) (by decide) (by decide)).2.2.1,
   (transform_slicing_clamps
      (FASTQRecord.mk "@r".toList "+".toList "ACGT".toList "IJKL".toList) 5 2 true).2
      (Or.inl (by decide))⟩

/-! ## Streams -/

theorem getline_extract_line (l rest : List Char) (h : '\n' ∉ l) :
    getline.extract (l ++ '\n' :: rest) = (l, some rest) := by
  induction l with
  | nil => simp [getline.extract]
  | cons c cs ih =>
    have hc : c ≠ '\n' := fun e => h (e ▸ List.mem_cons_self _ _)
    have hcs : '\n' ∉ cs := fun e => h (List.mem_cons_of_mem _ e)
    simp [getline.extract, hc, ih hcs]

theorem getline_line (l rest str : List Char) (h : '\n' ∉ l) :
    getline { buf := l ++ '\n' :: rest, eofbit := false, failbit := false } str
      = ({ buf := rest, eofbit := false, failbit := false }, l) := by
  simp [getline, istream.good, getline_extract_line l rest h]

theorem getline_not_good (is : istream) (str : List Char) (h : is.good = false) :
    (getline is str).1.failbit = true ∧ (getline is str).1.good = false := by
  have e : getline is str = ({ is with failbit := true }, str) := by
    unfold getline
    rw [if_neg (by simp [h])]
  rw [e]
  simp [istream.good]

theorem getline_end_of_input (str : List Char) :
    (getline { buf := [], eofbit := false, failbit := false } str).1.failbit = true := by
  simp [getline, istream.good, getline.extract]

theorem operator_insert_eq (os : List Char) (record : FASTQRecord) :
    operator_insert os record = os ++ operator_insert [] record := by
  simp [operator_insert]

theorem foldl_operator_insert (os : List Char) (records : List FASTQRecord) :
    records.foldl operator_insert os = os ++ file_of_records records := by
  unfold file_of_records
  induction records generalizing os with
  | nil => simp
  | cons r rs ih =>
    simp only [List.foldl_cons]
    rw [ih (operator_insert os r), ih (operator_insert [] r), operator_insert_eq os r]
    simp

theorem file_of_records_cons (record : FASTQRecord) (records : List FASTQRecord) :
    file_of_records (record :: records)
      = operator_insert [] record ++ file_of_records records := by
  show (record :: records).foldl operator_insert [] = _
  rw [List.foldl_cons, foldl_operator_insert]

theorem length_le_file_of_records (records : List FASTQRecord) :
    records.length ≤ (file_of_records records).length := by
  induction records with
  | nil => simp
  | cons r rs ih =>
    rw [file_of_records_cons]
    simp [operator_insert]
    omega

theorem operator_extract_record (record : FASTQRecord) (h : record.newline_free)
    (rest : List Char) (old : FASTQRecord) :
    operator_extract
        { buf := operator_insert [] record ++ rest, eofbit := false, failbit := false } old
      = ({ buf := rest, eofbit := false, failbit := false }, record) := by
  obtain ⟨h1, h2, h3, h4⟩ := h
  have e : operator_insert [] record ++ rest
      = record.name ++ '\n' :: (record.sequence ++ '\n' ::
          (record.comment ++ '\n' :: (record.quality ++ '\n' :: rest))) := by
    simp [operator_insert]
  rw [e]
  simp only [operator_extract, getline_line _ _ _ h1, getline_line _ _ _ h2,
    getline_line _ _ _ h3, getline_line _ _ _ h4]

theorem operator_extract_end_of_input (old : FASTQRecord) :
    (operator_extract { buf := [], eofbit := false, failbit := false } old).1.fail = true := by
  simp [operator_extract, getline, istream.good, getline.extract, istream.fail]

/-! ## Streaming transform and count -/

theorem main_loop_file_of_records (best_offset barcode_length : Nat) (best_rc : Bool)
    (records transformed : List FASTQRecord)
    (ht : List.Forall₂
      (fun r r' => r.transform best_offset barcode_length best_rc = .ok r') records transformed) :
    (∀ r ∈ records, r.newline_free) →
    ∀ (fuel : Nat) (old : FASTQRecord) (counts : List (List Char × Nat)) (out : List Char),
      records.length < fuel →
      main.loop best_offset barcode_length best_rc fuel
          { buf := file_of_records records, eofbit := false, failbit := false } old counts out
        = .ok (transformed.foldl operator_insert out,
               transformed.foldl (fun c r => unordered_map_increment c r.sequence) counts) := by
  induction ht with
  | nil =>
    intro _ fuel old counts out hf
    obtain ⟨k, rfl⟩ : ∃ k, fuel = k + 1 := ⟨fuel - 1, by simp at hf; omega⟩
    simp [main.loop, file_of_records, operator_extract_end_of_input]
  | @cons r r' rs rs' hr _ ih =>
    intro hnl fuel old counts out hf
    obtain ⟨k, rfl⟩ : ∃ k, fuel = k + 1 := ⟨fuel - 1, by simp at hf; omega⟩
    have hnr := hnl r (List.mem_cons_self _ _)
    rw [file_of_records_cons]
    simp only [main.loop, operator_extract_record r hnr, istream.fail, hr]
    simp only [Bool.false_eq_true, if_false]
    rw [ih (fun x hx => hnl x (List.mem_cons_of_mem _ hx)) k r' _ _
      (by simp at hf; omega)]
    simp

theorem read_fastq_loop_file_of_records (first_n : Int) (records : List FASTQRecord)
    (hnl : ∀ r ∈ records, r.newline_free) :
    ∀ (fuel : Nat) (old : FASTQRecord) (acc : List FASTQRecord) (record_count : Nat),
      records.length < fuel →
      read_fastq.loop first_n fuel
          { buf := file_of_records records, eofbit := false, failbit := false }
          old acc record_count
        = acc ++ (if first_n = -1 then records
                  else records.take (first_n - record_count).toNat) := by
  induction records with
  | nil =>
    intro fuel old acc record_count hf
    obtain ⟨k, rfl⟩ : ∃ k, fuel = k + 1 := ⟨fuel - 1, by simp at hf; omega⟩
    simp [read_fastq.loop, file_of_records, operator_extract_end_of_input]
  | cons r rs ih =>
    intro fuel old acc record_count hf
    obtain ⟨k, rfl⟩ : ∃ k, fuel = k + 1 := ⟨fuel - 1, by simp at hf; omega⟩
    have hnr := hnl r (List.mem_cons_self _ _)
    rw [file_of_records_cons]
    simp only [read_fastq.loop, operator_extract_record r hnr, istream.fail]
    simp only [Bool.false_eq_true, if_false]
    by_cases h1 : first_n = -1
    · rw [if_neg (by simp [h1]),
        ih (fun x hx => hnl x (List.mem_cons_of_mem _ hx)) k r _ _ (by simp at hf; omega)]
      simp [h1]
    · by_cases h2 : ((record_count + 1 : Nat) : Int) > first_n
      · rw [if_pos ⟨h1, h2⟩, if_neg h1]
        have : (first_n - (record_count : Int)).toNat = 0 := by
          push_cast at h2
          omega
        simp [this]
      · rw [if_neg (by tauto),
          ih (fun x hx => hnl x (List.mem_cons_of_mem _ hx)) k r _ _ (by simp at hf; omega)]
        simp only [if_neg h1]
        obtain ⟨j, hj⟩ : ∃ j, (first_n - (record_count : Int)).toNat = j + 1 := by
          push_cast at h2
          exact ⟨(first_n - (record_count : Int)).toNat - 1, by omega⟩
        have hj2 : (first_n - ((record_count + 1 : Nat) : Int)).toNat = j := by
          push_cast
          omega
        rw [hj, hj2]
        simp

theorem read_fastq_file_of_records (first_n : Int) (records : List FASTQRecord)
    (hnl : ∀ r ∈ records, r.newline_free) :
    read_fastq (file_of_records records) first_n
      = if first_n = -1 then records else records.take first_n.toNat := by
  unfold read_fastq istream.open
  rw [read_fastq_loop_file_of_records first_n records hnl _ _ _ _
    (Nat.lt_succ_of_le (length_le_file_of_records records))]
  simp

theorem reverse_complement_newline_free {s t : List Char} (h : reverse_complement s = .ok t) :
    '\n' ∉ t := by
  obtain ⟨hv, rfl⟩ := reverse_complement_eq_ok h
  intro hmem
  obtain ⟨c, hc, hcn⟩ := List.mem_map.mp hmem
  have := (nucleotide_complements_of_is_nucleotide (hv c (List.mem_reverse.mp hc))).2.1
  rw [hcn] at this
  exact absurd this (by decide)

theorem transform_newline_free {record out : FASTQRecord} {offset length : Nat} {rc : Bool}
    (h : record.transform offset length rc = .ok out) (hnl : record.newline_free) :
    out.newline_free := by
  obtain ⟨h1, h2, h3, h4⟩ := hnl
  have hs : ∀ s : List Char, '\n' ∉ s → '\n' ∉ (s.drop offset).take length :=
    fun s hs hm => hs (List.mem_of_mem_drop (List.mem_of_mem_take hm))
  unfold FASTQRecord.transform at h
  by_cases ho1 : offset ≤ record.sequence.length
  · by_cases ho2 : offset ≤ record.quality.length
    · rw [substr_ok ho1, substr_ok ho2] at h
      cases rc with
      | false =>
        simp only [Bool.false_eq_true, if_false] at h
        cases h
        exact ⟨h1, hs _ h2, h3, hs _ h4⟩
      | true =>
        simp only [if_true] at h
        cases hrc : reverse_complement ((record.sequence.drop offset).take length) with
        | error e => rw [hrc] at h; cases h
        | ok t =>
          rw [hrc] at h
          cases h
          exact ⟨h1, reverse_complement_newline_free hrc, h3,
            fun hm => hs _ h4 (List.mem_reverse.mp hm)⟩
    · rw [substr_ok ho1, substr_error (Nat.not_le.mp ho2)] at h
      cases h
  · rw [substr_error (Nat.not_le.mp ho1)] at h
    cases h

/-- C9: when the input holds the records `records` and the transform fails on none of
them, the loop of `main` writes exactly the transformed records, one per input record
and in input order: the output text is that of the list `transformed`, which has as
many records as the input and is what reading the output back yields. -/
theorem main_output_is_transformed_input (best_offset barcode_length : Nat) (best_rc : Bool)
    (records transformed : List FASTQRecord)
    (hnl : ∀ r ∈ records, r.newline_free)
    (ht : List.Forall₂
      (fun r r' => r.transform best_offset barcode_length best_rc = .ok r')
      records transformed) :
    (∃ counts,
      main.transform_records best_offset barcode_length best_rc (file_of_records records)
        = .ok (file_of_records transformed, counts)) ∧
    transformed.length = records.length ∧
    read_fastq (file_of_records records) (-1) = records ∧
    read_fastq (file_of_records transformed) (-1) = transformed := by
  refine ⟨⟨transformed.foldl (fun c r => unordered_map_increment c r.sequence) [], ?_⟩,
    ht.length_eq.symm, ?_, ?_⟩
  · unfold main.transform_records istream.open
    rw [main_loop_file_of_records best_offset barcode_length best_rc records transformed ht hnl
      _ _ _ _ (Nat.lt_succ_of_le (length_le_file_of_records records))]
    rfl
  · rw [read_fastq_file_of_records _ _ hnl]
    simp
  · rw [read_fastq_file_of_records]
    · simp
    · intro r' hr'
      obtain ⟨i, hi, rfl⟩ := List.getElem_of_mem hr'
      have hi2 : i < records.length := by rw [ht.length_eq]; exact hi
      have hrel := List.Forall₂.get ht hi2 hi
      exact transform_newline_free hrel (hnl _ (List.getElem_mem _))

theorem main_output_is_transformed_input_witness :
    (∃ counts,
      main.transform_records 1 3 false (file_of_records pipeline_scenario_records)
        = .ok (file_of_records pipeline_scenario_transformed, counts)) ∧
    pipeline_scenario_transformed.length = pipeline_scenario_records.length ∧
    read_fastq (file_of_records pipeline_scenario_records) (-1) = pipeline_scenario_records ∧
    read_fastq (file_of_records pipeline_scenario_transformed) (-1)
      = pipeline_scenario_transformed :=
  main_output_is_transformed_input 1 3 false pipeline_scenario_records
    pipeline_scenario_transformed (by decide)
    (List.Forall₂.cons rfl (List.Forall₂.cons rfl List.Forall₂.nil))

theorem unordered_map_find_increment (m : List (List Char × Nat)) (key b : List Char) :
    unordered_map_find (unordered_map_increment m key) b
      = if b = key then some ((unordered_map_find m b).getD 0 + 1)
        else unordered_map_find m b := by
  induction m with
  | nil => simp [unordered_map_increment, unordered_map_find]
  | cons kv m ih =>
    obtain ⟨k, v⟩ := kv
    by_cases hk : key = k
    · subst hk
      by_cases hb : b = key
      · simp [unordered_map_increment, unordered_map_find, hb]
      · simp [unordered_map_increment, unordered_map_find, hb]
    · by_cases hbk : b = k
      · subst hbk
        have hne : ¬ b = key := fun e => hk e.symm
        simp [unordered_map_increment, unordered_map_find, hk, hne]
      · simp [unordered_map_increment, unordered_map_find, hk, hbk, ih]

theorem unordered_map_find_foldl (records : List FASTQRecord) (m : List (List Char × Nat))
    (b : List Char) :
    unordered_map_find
        (records.foldl (fun c r => unordered_map_increment c r.sequence) m) b
      = if records.countP (fun r => r.sequence = b) = 0 then unordered_map_find m b
        else some ((unordered_map_find m b).getD 0
                    + records.countP (fun r => r.sequence = b)) := by
  induction records generalizing m with
  | nil => simp
  | cons r rs ih =>
    rw [List.foldl_cons, ih, unordered_map_find_increment]
    by_cases hb : r.sequence = b
    · have hb2 : b = r.sequence := hb.symm
      rw [if_pos hb2, List.countP_cons_of_pos _ _ (by simpa using hb)]
      by_cases h0 : rs.countP (fun r => decide (r.sequence = b)) = 0
      · simp [h0]
      · simp [h0]
        omega
    · have hb2 : ¬ b = r.sequence := fun e => hb e.symm
      rw [if_neg hb2, List.countP_cons_of_neg _ _ (by simpa using hb)]

/-- C10: when the input holds the records `records` and the transform fails on none of
them, the table `counts` at the end of the loop of `main` maps every string `b` to
the number of records whose sequence after the transform is `b`, and has no entry
for `b` when that number is zero; the triple (1, 3, false) on two records with the
sequences "XAACXX" and "YAACYY" gives the single entry AAC -> 2. -/
theorem main_counts_post_transform_sequences (best_offset barcode_length : Nat)
    (best_rc : Bool) (records transformed : List FASTQRecord)
    (hnl : ∀ r ∈ records, r.newline_free)
    (ht : List.Forall₂
      (fun r r' => r.transform best_offset barcode_length best_rc = .ok r')
      records transformed) :
    (∃ out counts,
      main.transform_records best_offset barcode_length best_rc (file_of_records records)
        = .ok (out, counts) ∧
      ∀ b : List Char,
        unordered_map_find counts b
          = if transformed.countP (fun r => r.sequence = b) = 0 then none
            else some (transformed.countP (fun r => r.sequence = b))) ∧
    (∃ out,
      main.transform_records 1 3 false (file_of_records pipeline_scenario_records)
        = .ok (out, [("AAC".toList, 2)])) := by
  refine ⟨⟨transformed.foldl operator_insert [],
    transformed.foldl (fun c r => unordered_map_increment c r.sequence) [], ?_, ?_⟩,
    ⟨file_of_records pipeline_scenario_transformed, rfl⟩⟩
  · unfold main.transform_records istream.open
    exact main_loop_file_of_records best_offset barcode_length best_rc records transformed
      ht hnl _ _ _ _ (Nat.lt_succ_of_le (length_le_file_of_records records))
  · intro b
    rw [unordered_map_find_foldl]
    simp [unordered_map_find]

theorem main_counts_post_transform_sequences_witness :
    (∃ out counts,
      main.transform_records 2 2 true (file_of_records pipeline_scenario_records)
        = .ok (out, counts) ∧
      ∀ b : List Char,
        unordered_map_find counts b
          = if pipeline_scenario_reversed.countP (fun r => r.sequence = b) = 0 then none
            else some (pipeline_scenario_reversed.countP (fun r => r.sequence = b))) ∧
    (∃ out,
      main.transform_records 1 3 false (file_of_records pipeline_scenario_records)
        = .ok (out, [("AAC".toList, 2)])) :=
  main_counts_post_transform_sequences 2 2 true pipeline_scenario_records
    pipeline_scenario_reversed (by decide)
    (List.Forall₂.cons rfl (List.Forall₂.cons rfl List.Forall₂.nil))

/-! ## Whitelist -/

theorem mem_unordered_set_insert {α : Type} [DecidableEq α] (s : List α) (x y : α) :
    y ∈ unordered_set_insert s x ↔ y ∈ s ∨ y = x := by
  unfold unordered_set_insert
  by_cases h : x ∈ s
  · rw [if_pos h]
    constructor
    · exact Or.inl
    · rintro (hy | rfl)
      · exact hy
      · exact h
  · rw [if_neg h]
    simp

theorem nodup_unordered_set_insert {α : Type} [DecidableEq α] (s : List α) (x : α)
    (h : s.Nodup) : (unordered_set_insert s x).Nodup := by
  unfold unordered_set_insert
  by_cases hx : x ∈ s
  · rw [if_pos hx]; exact h
  · rw [if_neg hx]
    exact List.Nodup.append h (List.nodup_singleton x)
      (fun a ha hb => hx (by rw [List.mem_singleton] at hb; exact hb ▸ ha))

theorem length_le_file_of_lines (lines : List (List Char)) :
    lines.length ≤ (file_of_lines lines).length := by
  induction lines with
  | nil => simp [file_of_lines]
  | cons l ls ih =>
    simp [file_of_lines]
    omega

theorem rc_set_ok (whitelist : List (List Char))
    (hv : ∀ b ∈ whitelist, ∀ c ∈ b, is_nucleotide c) (acc : List (List Char)) :
    ∃ s, determine_transform.rc_set whitelist acc = .ok s ∧
      ∀ x, x ∈ s ↔ x ∈ acc ∨ ∃ b ∈ whitelist, reverse_complement b = .ok x := by
  induction whitelist generalizing acc with
  | nil => exact ⟨acc, rfl, by simp⟩
  | cons b bs ih =>
    have hb := reverse_complement_ok b (hv b (List.mem_cons_self _ _))
    obtain ⟨s, hs, hmem⟩ := ih (fun x hx => hv x (List.mem_cons_of_mem _ hx))
      (unordered_set_insert acc (b.reverse.map complement_char))
    refine ⟨s, by simp only [determine_transform.rc_set, hb, hs], ?_⟩
    intro x
    rw [hmem, mem_unordered_set_insert]
    constructor
    · rintro ((h | h) | ⟨b', hb', h⟩)
      · exact Or.inl h
      · exact Or.inr ⟨b, List.mem_cons_self _ _, by rw [hb, h]⟩
      · exact Or.inr ⟨b', List.mem_cons_of_mem _ hb', h⟩
    · rintro (h | ⟨b', hb', h⟩)
      · exact Or.inl (Or.inl h)
      · rcases List.mem_cons.mp hb' with rfl | hb''
        · rw [hb] at h
          cases h
          exact Or.inl (Or.inr rfl)
        · exact Or.inr ⟨b', hb'', h⟩

theorem rc_set_error (whitelist : List (List Char))
    (h : ∃ b ∈ whitelist, ∃ c ∈ b, ¬ is_nucleotide c) (acc : List (List Char)) :
    determine_transform.rc_set whitelist acc = .error .out_of_range_map_at := by
  induction whitelist generalizing acc with
  | nil => simp at h
  | cons b bs ih =>
    by_cases hb : ∀ c ∈ b, is_nucleotide c
    · simp only [determine_transform.rc_set, reverse_complement_ok b hb]
      apply ih
      obtain ⟨b', hb', c, hc, hn⟩ := h
      rcases List.mem_cons.mp hb' with rfl | hb''
      · exact absurd (hb c hc) hn
      · exact ⟨b', hb'', c, hc, hn⟩
    · push_neg at hb
      simp only [determine_transform.rc_set, reverse_complement_error b hb]

theorem rc_set_error_kind (whitelist acc : List (List Char)) (e : Exception)
    (h : determine_transform.rc_set whitelist acc = .error e) : e = .out_of_range_map_at := by
  by_cases hv : ∀ b ∈ whitelist, ∀ c ∈ b, is_nucleotide c
  · obtain ⟨s, hs, _⟩ := rc_set_ok whitelist hv acc
    rw [hs] at h
    cases h
  · push_neg at hv
    rw [rc_set_error whitelist hv acc] at h
    cases h
    rfl

theorem foldl_barcode_lengths (whitelist : List (List Char)) (acc : List Nat) :
    (acc.Nodup →
      (whitelist.foldl (fun s barcode => unordered_set_insert s barcode.length) acc).Nodup) ∧
    ∀ n, n ∈ whitelist.foldl (fun s barcode => unordered_set_insert s barcode.length) acc
      ↔ n ∈ acc ∨ ∃ b ∈ whitelist, b.length = n := by
  induction whitelist generalizing acc with
  | nil => simp
  | cons b bs ih =>
    obtain ⟨ih1, ih2⟩ := ih (unordered_set_insert acc b.length)
    refine ⟨fun h => ih1 (nodup_unordered_set_insert _ _ h), fun n => ?_⟩
    rw [List.foldl_cons, ih2, mem_unordered_set_insert]
    simp only [List.mem_cons, exists_eq_or_imp]
    constructor
    · rintro ((h | h) | h)
      · exact Or.inl h
      · exact Or.inr (Or.inl h.symm)
      · exact Or.inr (Or.inr h)
    · rintro (h | h | h)
      · exact Or.inl (Or.inl h)
      · exact Or.inl (Or.inr h.symm)
      · exact Or.inr h

theorem nodup_barcode_lengths (whitelist : List (List Char)) :
    (determine_transform.barcode_lengths whitelist).Nodup :=
  (foldl_barcode_lengths whitelist []).1 List.nodup_nil

theorem mem_barcode_lengths (whitelist : List (List Char)) (n : Nat) :
    n ∈ determine_transform.barcode_lengths whitelist ↔ ∃ b ∈ whitelist, b.length = n := by
  unfold determine_transform.barcode_lengths
  rw [(foldl_barcode_lengths whitelist []).2]
  simp

theorem barcode_length_uniform (whitelist : List (List Char)) (L : Nat)
    (hne : whitelist ≠ []) (h : ∀ b ∈ whitelist, b.length = L) :
    determine_transform.barcode_length whitelist = .ok L := by
  have hall : ∀ n ∈ determine_transform.barcode_lengths whitelist, n = L := by
    intro n hn
    obtain ⟨b, hb, rfl⟩ := (mem_barcode_lengths whitelist n).mp hn
    exact h b hb
  have hmem : L ∈ determine_transform.barcode_lengths whitelist := by
    obtain ⟨b, hb⟩ := List.exists_mem_of_ne_nil whitelist hne
    exact (mem_barcode_lengths whitelist L).mpr ⟨b, hb, h b hb⟩
  have hnd := nodup_barcode_lengths whitelist
  unfold determine_transform.barcode_length
  cases hl : determine_transform.barcode_lengths whitelist with
  | nil => rw [hl] at hmem; cases hmem
  | cons a rest =>
    rw [hl] at hall hnd
    cases rest with
    | nil =>
      have ha : a = L := hall a (List.mem_cons_self _ _)
      simp [ha]
    | cons a2 rest2 =>
      have ha : a = L := hall a (List.mem_cons_self _ _)
      have ha2 : a2 = L := hall a2 (List.mem_cons_of_mem _ (List.mem_cons_self _ _))
      rw [List.nodup_cons] at hnd
      exact absurd (ha.trans ha2.symm ▸ List.mem_cons_self _ _) hnd.1

theorem barcode_length_mixed (whitelist : List (List Char))
    (h : ∃ b1 ∈ whitelist, ∃ b2 ∈ whitelist, b1.length ≠ b2.length) :
    determine_transform.barcode_length whitelist = .error .runtime_error_barcode_lengths := by
  obtain ⟨b1, hb1, b2, hb2, hne⟩ := h
  have h1 := (mem_barcode_lengths whitelist b1.length).mpr ⟨b1, hb1, rfl⟩
  have h2 := (mem_barcode_lengths whitelist b2.length).mpr ⟨b2, hb2, rfl⟩
  unfold determine_transform.barcode_length
  cases hl : determine_transform.barcode_lengths whitelist with
  | nil => rw [hl] at h1; cases h1
  | cons a rest =>
    cases rest with
    | nil =>
      rw [hl] at h1 h2
      simp only [List.mem_singleton] at h1 h2
      exact absurd (h1.trans h2.symm) hne
    | cons a2 rest2 => simp

/-! ## Detector: scanning the sample -/

theorem loop_bound_le {size L offset : Nat} (hL : L ≤ size + 1)
    (h : offset < determine_transform.loop_bound size L) : offset + L ≤ size := by
  unfold determine_transform.loop_bound at h
  omega

theorem scan_offsets_returns (whitelist whitelist_rc : List (List Char)) (L : Nat)
    (sequence : List Char) (hL : L ≤ sequence.length + 1) :
    ∀ (fuel offset : Nat) (counts : List (Nat × Nat) × List (Nat × Nat)),
      ∃ counts', determine_transform.scan_offsets whitelist whitelist_rc L sequence
        fuel offset counts = .ok counts' := by
  intro fuel
  induction fuel with
  | zero => intro offset counts; exact ⟨counts, rfl⟩
  | succ k ih =>
    intro offset counts
    unfold determine_transform.scan_offsets
    by_cases hb : offset < determine_transform.loop_bound sequence.length L
    · have ho : offset ≤ sequence.length := by have := loop_bound_le hL hb; omega
      simp only [if_pos hb, substr_ok ho]
      exact ih _ _
    · exact ⟨counts, by simp only [if_neg hb]⟩

theorem scan_offsets_no_match (whitelist whitelist_rc : List (List Char)) (L : Nat)
    (sequence : List Char) (hL : L ≤ sequence.length + 1)
    (hno : ∀ o, o + L ≤ sequence.length →
      slice sequence o (o + L) ∉ whitelist ∧ slice sequence o (o + L) ∉ whitelist_rc) :
    ∀ (fuel offset : Nat) (counts : List (Nat × Nat) × List (Nat × Nat)),
      determine_transform.scan_offsets whitelist whitelist_rc L sequence fuel offset counts
        = .ok counts := by
  intro fuel
  induction fuel with
  | zero => intro offset counts; rfl
  | succ k ih =>
    intro offset counts
    unfold determine_transform.scan_offsets
    by_cases hb : offset < determine_transform.loop_bound sequence.length L
    · have hw := loop_bound_le hL hb
      have ho : offset ≤ sequence.length := by omega
      obtain ⟨h1, h2⟩ := hno offset hw
      rw [← drop_take_eq_slice] at h1 h2
      simp only [if_pos hb, substr_ok ho, if_neg h1, if_neg h2]
      exact ih _ _
    · simp only [if_neg hb]

theorem scan_records_no_match (whitelist whitelist_rc : List (List Char)) (L : Nat)
    (records : List FASTQRecord)
    (hL : ∀ r ∈ records, L ≤ r.sequence.length + 1)
    (hno : ∀ r ∈ records, ∀ o, o + L ≤ r.sequence.length →
      slice r.sequence o (o + L) ∉ whitelist ∧ slice r.sequence o (o + L) ∉ whitelist_rc)
    (counts : List (Nat × Nat) × List (Nat × Nat)) :
    determine_transform.scan_records whitelist whitelist_rc L records counts = .ok counts := by
  induction records with
  | nil => rfl
  | cons r rs ih =>
    have h1 := scan_offsets_no_match whitelist whitelist_rc L r.sequence
      (hL r (List.mem_cons_self _ _)) (hno r (List.mem_cons_self _ _))
      (r.sequence.length + 2) 0 counts
    simp only [determine_transform.scan_records, determine_transform.scan_record, h1]
    exact ih (fun x hx => hL x (List.mem_cons_of_mem _ hx))
      (fun x hx => hno x (List.mem_cons_of_mem _ hx))

theorem scan_records_returns (whitelist whitelist_rc : List (List Char)) (L : Nat)
    (records : List FASTQRecord)
    (hL : ∀ r ∈ records, L ≤ r.sequence.length + 1)
    (counts : List (Nat × Nat) × List (Nat × Nat)) :
    ∃ counts', determine_transform.scan_records whitelist whitelist_rc L records counts
      = .ok counts' := by
  induction records generalizing counts with
  | nil => exact ⟨counts, rfl⟩
  | cons r rs ih =>
    obtain ⟨c1, h1⟩ := scan_offsets_returns whitelist whitelist_rc L r.sequence
      (hL r (List.mem_cons_self _ _)) (r.sequence.length + 2) 0 counts
    simp only [determine_transform.scan_records, determine_transform.scan_record, h1]
    exact ih (fun x hx => hL x (List.mem_cons_of_mem _ hx)) c1

theorem scan_offsets_error_kind (whitelist whitelist_rc : List (List Char)) (L : Nat)
    (sequence : List Char) (e : Exception) :
    ∀ (fuel offset : Nat) (counts : List (Nat × Nat) × List (Nat × Nat)),
      determine_transform.scan_offsets whitelist whitelist_rc L sequence fuel offset counts
        = .error e → e = .out_of_range_substr := by
  intro fuel
  induction fuel with
  | zero => intro offset counts h; cases h
  | succ k ih =>
    intro offset counts h
    unfold determine_transform.scan_offsets at h
    by_cases hb : offset < determine_transform.loop_bound sequence.length L
    · by_cases ho : offset ≤ sequence.length
      · simp only [if_pos hb, substr_ok ho] at h
        exact ih _ _ h
      · simp only [if_pos hb, substr_error (Nat.not_le.mp ho)] at h
        cases h
        rfl
    · simp only [if_neg hb] at h
      cases h

theorem scan_records_error_kind (whitelist whitelist_rc : List (List Char)) (L : Nat)
    (records : List FASTQRecord) (e : Exception)
    (counts : List (Nat × Nat) × List (Nat × Nat))
    (h : determine_transform.scan_records whitelist whitelist_rc L records counts = .error e) :
    e = .out_of_range_substr := by
  induction records generalizing counts with
  | nil => cases h
  | cons r rs ih =>
    simp only [determine_transform.scan_records, determine_transform.scan_record] at h
    cases hs : determine_transform.scan_offsets whitelist whitelist_rc L r.sequence
        (r.sequence.length + 2) 0 counts with
    | error e' =>
      rw [hs] at h
      cases h
      exact scan_offsets_error_kind _ _ _ _ _ _ _ _ hs
    | ok c1 =>
      rw [hs] at h
      exact ih c1 h

/-- Enough fuel: the inner loop started with at least `size + 2 - offset` iterations
to spare gives the same result whatever the surplus, so the bound passed by
`scan_record` never cuts the loop short. -/
theorem scan_offsets_fuel (whitelist whitelist_rc : List (List Char)) (L : Nat)
    (sequence : List Char) :
    ∀ (fuel fuel' offset : Nat) (counts : List (Nat × Nat) × List (Nat × Nat)),
      offset ≤ sequence.length + 1 →
      sequence.length + 2 ≤ fuel + offset → sequence.length + 2 ≤ fuel' + offset →
      determine_transform.scan_offsets whitelist whitelist_rc L sequence fuel offset counts
        = determine_transform.scan_offsets whitelist whitelist_rc L sequence fuel' offset
            counts := by
  intro fuel
  induction fuel with
  | zero => intro fuel' offset counts h1 h2 h3; omega
  | succ k ih =>
    intro fuel' offset counts h1 h2 h3
    obtain ⟨k', rfl⟩ : ∃ k', fuel' = k' + 1 := ⟨fuel' - 1, by omega⟩
    unfold determine_transform.scan_offsets
    by_cases hb : offset < determine_transform.loop_bound sequence.length L
    · by_cases ho : offset ≤ sequence.length
      · simp only [if_pos hb, substr_ok ho]
        exact ih k' (offset + 1) _ (by omega) (by omega) (by omega)
      · simp only [if_pos hb, substr_error (Nat.not_le.mp ho)]
    · simp only [if_neg hb]

/-! ## Detector: the counter maps -/

theorem mem_map_increment {m : List (Nat × Nat)} {key : Nat} {kv : Nat × Nat}
    (h : kv ∈ map_increment m key) : kv.1 = key ∨ ∃ kv' ∈ m, kv'.1 = kv.1 := by
  induction m with
  | nil =>
    simp only [map_increment, List.mem_singleton] at h
    exact Or.inl (by rw [h])
  | cons a m ih =>
    obtain ⟨k, v⟩ := a
    unfold map_increment at h
    by_cases h1 : key < k
    · rw [if_pos h1] at h
      rcases List.mem_cons.mp h with rfl | h'
      · exact Or.inl rfl
      · exact Or.inr ⟨kv, h', rfl⟩
    · rw [if_neg h1] at h
      by_cases h2 : key = k
      · rw [if_pos h2] at h
        rcases List.mem_cons.mp h with rfl | h'
        · exact Or.inl h2.symm
        · exact Or.inr ⟨kv, List.mem_cons_of_mem _ h', rfl⟩
      · rw [if_neg h2] at h
        rcases List.mem_cons.mp h with rfl | h'
        · exact Or.inr ⟨(k, v), List.mem_cons_self _ _, rfl⟩
        · rcases ih h' with h3 | ⟨kv', hkv', h3⟩
          · exact Or.inl h3
          · exact Or.inr ⟨kv', List.mem_cons_of_mem _ hkv', h3⟩

theorem map_increment_sorted (m : List (Nat × Nat)) (key : Nat)
    (h : m.Pairwise (fun a b => a.1 < b.1)) :
    (map_increment m key).Pairwise (fun a b => a.1 < b.1) := by
  induction m with
  | nil => simp [map_increment]
  | cons a m ih =>
    obtain ⟨k, v⟩ := a
    rw [List.pairwise_cons] at h
    obtain ⟨hk, hm⟩ := h
    unfold map_increment
    by_cases h1 : key < k
    · rw [if_pos h1, List.pairwise_cons]
      refine ⟨?_, List.pairwise_cons.mpr ⟨hk, hm⟩⟩
      intro b hb
      rcases List.mem_cons.mp hb with rfl | hb'
      · exact h1
      · exact lt_trans h1 (hk b hb')
    · rw [if_neg h1]
      by_cases h2 : key = k
      · rw [if_pos h2, List.pairwise_cons]
        exact ⟨hk, hm⟩
      · rw [if_neg h2, List.pairwise_cons]
        refine ⟨?_, ih hm⟩
        intro b hb
        rcases mem_map_increment hb with h3 | ⟨kv', hkv', h3⟩
        · show k < b.1
          omega
        · show k < b.1
          rw [← h3]
          exact hk kv' hkv'

theorem scan_offsets_sorted (whitelist whitelist_rc : List (List Char)) (L : Nat)
    (sequence : List Char) :
    ∀ (fuel offset : Nat) (counts counts' : List (Nat × Nat) × List (Nat × Nat)),
      counts.1.Pairwise (fun a b => a.1 < b.1) → counts.2.Pairwise (fun a b => a.1 < b.1) →
      determine_transform.scan_offsets whitelist whitelist_rc L sequence fuel offset counts
        = .ok counts' →
      counts'.1.Pairwise (fun a b => a.1 < b.1) ∧
        counts'.2.Pairwise (fun a b => a.1 < b.1) := by
  intro fuel
  induction fuel with
  | zero =>
    intro offset counts counts' h1 h2 h
    cases h
    exact ⟨h1, h2⟩
  | succ k ih =>
    intro offset counts counts' h1 h2 h
    unfold determine_transform.scan_offsets at h
    by_cases hb : offset < determine_transform.loop_bound sequence.length L
    · by_cases ho : offset ≤ sequence.length
      · simp only [if_pos hb, substr_ok ho] at h
        refine ih _ _ _ ?_ ?_ h
        · show (if _ then _ else _ : List (Nat × Nat)).Pairwise _
          split
          · exact map_increment_sorted _ _ h1
          · exact h1
        · show (if _ then _ else _ : List (Nat × Nat)).Pairwise _
          split
          · exact map_increment_sorted _ _ h2
          · exact h2
      · simp only [if_pos hb, substr_error (Nat.not_le.mp ho)] at h
        cases h
    · simp only [if_neg hb] at h
      cases h
      exact ⟨h1, h2⟩

theorem scan_records_sorted (whitelist whitelist_rc : List (List Char)) (L : Nat)
    (records : List FASTQRecord) (counts counts' : List (Nat × Nat) × List (Nat × Nat))
    (h1 : counts.1.Pairwise (fun a b => a.1 < b.1))
    (h2 : counts.2.Pairwise (fun a b => a.1 < b.1))
    (h : determine_transform.scan_records whitelist whitelist_rc L records counts
      = .ok counts') :
    counts'.1.Pairwise (fun a b => a.1 < b.1) ∧ counts'.2.Pairwise (fun a b => a.1 < b.1) := by
  induction records generalizing counts with
  | nil => cases h; exact ⟨h1, h2⟩
  | cons r rs ih =>
    simp only [determine_transform.scan_records, determine_transform.scan_record] at h
    cases hs : determine_transform.scan_offsets whitelist whitelist_rc L r.sequence
        (r.sequence.length + 2) 0 counts with
    | error e => rw [hs] at h; cases h
    | ok c1 =>
      rw [hs] at h
      obtain ⟨s1, s2⟩ := scan_offsets_sorted _ _ _ _ _ _ _ _ h1 h2 hs
      exact ih c1 s1 s2 h

theorem map_count_le_max_value (m : List (Nat × Nat)) (offset : Nat) :
    map_count m offset ≤ max_value m := by
  induction m with
  | nil => simp [map_count, max_value]
  | cons a m ih =>
    obtain ⟨k, v⟩ := a
    unfold map_count max_value
    by_cases h : offset = k
    · rw [if_pos h]; exact le_max_left _ _
    · rw [if_neg h]; exact le_trans ih (le_max_right _ _)

theorem map_count_of_mem {m : List (Nat × Nat)} (hs : m.Pairwise (fun a b => a.1 < b.1))
    {k v : Nat} (h : (k, v) ∈ m) : map_count m k = v := by
  induction m with
  | nil => cases h
  | cons a m ih =>
    obtain ⟨k', v'⟩ := a
    rw [List.pairwise_cons] at hs
    unfold map_count
    rcases List.mem_cons.mp h with heq | hmem
    · cases heq
      simp
    · have hlt : k' < k := hs.1 (k, v) hmem
      rw [if_neg (by omega)]
      exact ih hs.2 hmem

theorem exists_mem_of_max_value_pos (m : List (Nat × Nat)) (h : 0 < max_value m) :
    ∃ k, (k, max_value m) ∈ m := by
  induction m with
  | nil => simp [max_value] at h
  | cons a m ih =>
    obtain ⟨k, v⟩ := a
    unfold max_value
    by_cases hv : max_value m ≤ v
    · rw [max_eq_left hv]
      exact ⟨k, List.mem_cons_self _ _⟩
    · have hlt : v < max_value m := Nat.not_le.mp hv
      rw [max_eq_right (le_of_lt hlt)]
      obtain ⟨k', hk'⟩ := ih (by omega)
      exact ⟨k', List.mem_cons_of_mem _ hk'⟩

theorem is_max_count_max_value (m : List (Nat × Nat))
    (hs : m.Pairwise (fun a b => a.1 < b.1)) : is_max_count m (max_value m) := by
  refine ⟨map_count_le_max_value m, ?_⟩
  by_cases h : 0 < max_value m
  · obtain ⟨k, hk⟩ := exists_mem_of_max_value_pos m h
    exact ⟨k, map_count_of_mem hs hk⟩
  · have h0 : max_value m = 0 := by omega
    exact ⟨0, by have := map_count_le_max_value m 0; omega⟩

theorem is_max_count_unique {m : List (Nat × Nat)} {a b : Nat}
    (ha : is_max_count m a) (hb : is_max_count m b) : a = b := by
  obtain ⟨ha1, oa, ha2⟩ := ha
  obtain ⟨hb1, ob, hb2⟩ := hb
  have h1 := ha1 ob
  have h2 := hb1 oa
  omega

theorem select_spec (rc : Bool) (m : List (Nat × Nat)) (best : Best) :
    (best.best_match_count < max_value m →
      (determine_transform.select rc m best).best_rc = rc ∧
      (determine_transform.select rc m best).best_match_count = max_value m ∧
      ((determine_transform.select rc m best).best_offset, max_value m) ∈ m) ∧
    (max_value m ≤ best.best_match_count → determine_transform.select rc m best = best) := by
  induction m generalizing best with
  | nil =>
    refine ⟨fun h => ?_, fun _ => rfl⟩
    simp [max_value] at h
  | cons a m ih =>
    obtain ⟨k, v⟩ := a
    unfold determine_transform.select max_value
    by_cases hv : v > best.best_match_count
    · rw [if_pos hv]
      obtain ⟨ih1, ih2⟩ := ih { best_offset := k, best_rc := rc, best_match_count := v }
      refine ⟨fun _ => ?_, fun h => ?_⟩
      · by_cases hm : v < max_value m
        · obtain ⟨r1, r2, r3⟩ := ih1 hm
          rw [max_eq_right (le_of_lt hm)]
          exact ⟨r1, r2, List.mem_cons_of_mem _ r3⟩
        · have hm' : max_value m ≤ v := Nat.not_lt.mp hm
          rw [ih2 hm', max_eq_left hm']
          exact ⟨rfl, rfl, List.mem_cons_self _ _⟩
      · have := le_trans (le_max_left v (max_value m)) h
        omega
    · rw [if_neg hv]
      have hv' : v ≤ best.best_match_count := Nat.not_lt.mp hv
      obtain ⟨ih1, ih2⟩ := ih best
      refine ⟨fun h => ?_, fun h => ih2 (le_trans (le_max_right _ _) h)⟩
      have hm : best.best_match_count < max_value m := by
        rcases lt_max_iff.mp h with h' | h'
        · omega
        · exact h'
      obtain ⟨r1, r2, r3⟩ := ih1 hm
      rw [max_eq_right (by omega)]
      exact ⟨r1, r2, List.mem_cons_of_mem _ r3⟩

/-! ## Detector: the returned triple -/

theorem best_spec (counts : List (Nat × Nat) × List (Nat × Nat))
    (h1 : counts.1.Pairwise (fun a b => a.1 < b.1))
    (h2 : counts.2.Pairwise (fun a b => a.1 < b.1)) :
    (max_value counts.2 ≤ max_value counts.1 →
      (determine_transform.best counts).best_rc = false ∧
      map_count counts.1 (determine_transform.best counts).best_offset
        = max_value counts.1) ∧
    (max_value counts.1 < max_value counts.2 →
      (determine_transform.best counts).best_rc = true ∧
      map_count counts.2 (determine_transform.best counts).best_offset
        = max_value counts.2) := by
  have hfirst : (determine_transform.select false counts.1
        { best_offset := 0, best_rc := false, best_match_count := 0 }).best_rc = false ∧
      (determine_transform.select false counts.1
        { best_offset := 0, best_rc := false, best_match_count := 0 }).best_match_count
        = max_value counts.1 ∧
      map_count counts.1 (determine_transform.select false counts.1
        { best_offset := 0, best_rc := false, best_match_count := 0 }).best_offset
        = max_value counts.1 := by
    obtain ⟨s1, s2⟩ := select_spec false counts.1
      { best_offset := 0, best_rc := false, best_match_count := 0 }
    by_cases hpos : 0 < max_value counts.1
    · obtain ⟨r1, r2, r3⟩ := s1 hpos
      exact ⟨r1, r2, map_count_of_mem h1 r3⟩
    · have h0 : max_value counts.1 = 0 := by omega
      rw [s2 (by simp [h0])]
      refine ⟨rfl, h0.symm, ?_⟩
      have := map_count_le_max_value counts.1 0
      show map_count counts.1 0 = max_value counts.1
      omega
  obtain ⟨f1, f2, f3⟩ := hfirst
  obtain ⟨s1, s2⟩ := select_spec true counts.2 (determine_transform.select false counts.1
    { best_offset := 0, best_rc := false, best_match_count := 0 })
  unfold determine_transform.best
  constructor
  · intro hle
    rw [s2 (by rw [f2]; exact hle)]
    exact ⟨f1, f3⟩
  · intro hlt
    obtain ⟨r1, _, r3⟩ := s1 (by rw [f2]; exact hlt)
    exact ⟨r1, map_count_of_mem h2 r3⟩

theorem scan_eq_ok {w f : List Char} {n : Int} {L : Nat}
    {counts : List (Nat × Nat) × List (Nat × Nat)}
    (h : determine_transform.scan w f n = .ok (L, counts)) :
    counts.1.Pairwise (fun a b => a.1 < b.1) ∧ counts.2.Pairwise (fun a b => a.1 < b.1) ∧
      determine_transform.barcode_length (read_whitelist w) = .ok L := by
  unfold determine_transform.scan at h
  cases h1 : determine_transform.rc_set (read_whitelist w) [] with
  | error e => simp only [h1] at h; cases h
  | ok wrc =>
    cases h2 : determine_transform.barcode_length (read_whitelist w) with
    | error e => simp only [h1, h2] at h; cases h
    | ok L' =>
      cases h3 : determine_transform.scan_records (read_whitelist w) wrc L'
          (read_fastq f n) ([], []) with
      | error e => simp only [h1, h2, h3] at h; cases h
      | ok c =>
        simp only [h1, h2, h3] at h
        cases h
        obtain ⟨s1, s2⟩ := scan_records_sorted _ _ _ _ _ _ List.Pairwise.nil
          List.Pairwise.nil h3
        exact ⟨s1, s2, rfl⟩

theorem determine_transform_eq_ok {w f : List Char} {n : Int} {t : Nat × Nat × Nat}
    (h : determine_transform w f n = .ok t) :
    ∃ L counts, determine_transform.scan w f n = .ok (L, counts) ∧
      t = ((determine_transform.best counts).best_offset, L,
           if (determine_transform.best counts).best_rc then 1 else 0) := by
  unfold determine_transform at h
  cases hs : determine_transform.scan w f n with
  | error e => rw [hs] at h; cases h
  | ok scanned =>
    rw [hs] at h
    cases h
    exact ⟨scanned.1, scanned.2, rfl, rfl⟩

theorem scan_of_valid_whitelist (w f : List Char) (n : Int)
    (hv : ∀ b ∈ read_whitelist w, ∀ c ∈ b, is_nucleotide c) :
    ∃ wrc, (∀ x, x ∈ wrc ↔ ∃ b ∈ read_whitelist w, reverse_complement b = .ok x) ∧
      determine_transform.scan w f n =
        match determine_transform.barcode_length (read_whitelist w) with
        | .error e => .error e
        | .ok L =>
          match determine_transform.scan_records (read_whitelist w) wrc L
              (read_fastq f n) ([], []) with
          | .error e => .error e
          | .ok counts => .ok (L, counts) := by
  obtain ⟨wrc, h1, h2⟩ := rc_set_ok (read_whitelist w) hv []
  refine ⟨wrc, fun x => by rw [h2]; simp, ?_⟩
  unfold determine_transform.scan
  rw [h1]

/-- C6: whenever the detector returns, its third component is `1` (the flag is true)
exactly when the maximum over all offsets of the reverse-complement match counts is
strictly greater than the maximum of the forward match counts, and `0` otherwise, in
particular when the two maxima are equal. -/
theorem orientation_flag_iff_rc_maximum_greater (w f : List Char) (n : Int)
    (t : Nat × Nat × Nat) (h : determine_transform w f n = .ok t) :
    ∃ L counts forward_max rc_max,
      determine_transform.scan w f n = .ok (L, counts) ∧
      is_max_count counts.1 forward_max ∧ is_max_count counts.2 rc_max ∧
      (t.2.2 = 1 ↔ forward_max < rc_max) ∧ (t.2.2 = 0 ↔ rc_max ≤ forward_max) ∧
      (forward_max = rc_max → t.2.2 = 0) := by
  obtain ⟨L, counts, hs, rfl⟩ := determine_transform_eq_ok h
  obtain ⟨s1, s2, _⟩ := scan_eq_ok hs
  obtain ⟨b1, b2⟩ := best_spec counts s1 s2
  refine ⟨L, counts, max_value counts.1, max_value counts.2, hs,
    is_max_count_max_value _ s1, is_max_count_max_value _ s2, ?_⟩
  by_cases hlt : max_value counts.1 < max_value counts.2
  · obtain ⟨r, _⟩ := b2 hlt
    have hflag : (if (determine_transform.best counts).best_rc then 1 else 0 : Nat) = 1 := by
      rw [r]; rfl
    have key : ∀ x : Nat, x = 1 →
        (x = 1 ↔ max_value counts.1 < max_value counts.2) ∧
        (x = 0 ↔ max_value counts.2 ≤ max_value counts.1) ∧
        (max_value counts.1 = max_value counts.2 → x = 0) := by
      intro x hx
      subst hx
      exact ⟨⟨fun _ => hlt, fun _ => rfl⟩, ⟨fun h => by omega, fun h => by omega⟩,
        fun h => by omega⟩
    exact key _ hflag
  · obtain ⟨r, _⟩ := b1 (Nat.not_lt.mp hlt)
    have hflag : (if (determine_transform.best counts).best_rc then 1 else 0 : Nat) = 0 := by
      rw [r]; rfl
    have key : ∀ x : Nat, x = 0 →
        (x = 1 ↔ max_value counts.1 < max_value counts.2) ∧
        (x = 0 ↔ max_value counts.2 ≤ max_value counts.1) ∧
        (max_value counts.1 = max_value counts.2 → x = 0) := by
      intro x hx
      subst hx
      exact ⟨⟨fun h => by omega, fun h => by omega⟩, ⟨fun _ => by omega, fun _ => rfl⟩,
        fun _ => rfl⟩
    exact key _ hflag

theorem orientation_flag_iff_rc_maximum_greater_witness :
    determine_transform whitelist_scenario detection_scenario_tie 10000 = .ok (0, 4, 0) ∧
    ∃ L counts forward_max rc_max,
      determine_transform.scan whitelist_scenario detection_scenario_tie 10000
        = .ok (L, counts) ∧
      is_max_count counts.1 forward_max ∧ is_max_count counts.2 rc_max ∧
      ((0, 4, 0).2.2 = 1 ↔ forward_max < rc_max) ∧
      ((0, 4, 0).2.2 = 0 ↔ rc_max ≤ forward_max) ∧
      (forward_max = rc_max → (0, 4, 0).2.2 = 0) :=
  ⟨rfl, orientation_flag_iff_rc_maximum_greater whitelist_scenario detection_scenario_tie
    10000 (0, 4, 0) rfl⟩

/-- C7: whenever the detector returns, the returned offset attains the maximum match
count of the returned orientation: the maximum forward count when the flag is `0`, the
maximum reverse-complement count when it is not.  Whitelist {"AACC"} gives (2, 4, 0)
on the sample sequence "NNAACCNN" and (2, 4, 1) on "NNGGTTNN". -/
theorem returned_offset_attains_maximum (w f : List Char) (n : Int)
    (t : Nat × Nat × Nat) (h : determine_transform w f n = .ok t) :
    (∃ L counts,
      determine_transform.scan w f n = .ok (L, counts) ∧
      (t.2.2 = 0 → is_max_count counts.1 (map_count counts.1 t.1)) ∧
      (t.2.2 ≠ 0 → is_max_count counts.2 (map_count counts.2 t.1))) ∧
    determine_transform whitelist_scenario detection_scenario_forward 10000
      = .ok (2, 4, 0) ∧
    determine_transform whitelist_scenario detection_scenario_reverse 10000
      = .ok (2, 4, 1) := by
  refine ⟨?_, rfl, rfl⟩
  obtain ⟨L, counts, hs, rfl⟩ := determine_transform_eq_ok h
  obtain ⟨s1, s2, _⟩ := scan_eq_ok hs
  obtain ⟨b1, b2⟩ := best_spec counts s1 s2
  refine ⟨L, counts, hs, ?_⟩
  by_cases hlt : max_value counts.1 < max_value counts.2
  · obtain ⟨r, r2⟩ := b2 hlt
    have hflag : (if (determine_transform.best counts).best_rc then 1 else 0 : Nat) = 1 := by
      rw [r]; rfl
    refine ⟨fun h0 => ?_, fun _ => ?_⟩
    · have h0' : (if (determine_transform.best counts).best_rc then 1 else 0 : Nat) = 0 := h0
      omega
    · show is_max_count counts.2
        (map_count counts.2 (determine_transform.best counts).best_offset)
      rw [r2]
      exact is_max_count_max_value _ s2
  · obtain ⟨r, r2⟩ := b1 (Nat.not_lt.mp hlt)
    have hflag : (if (determine_transform.best counts).best_rc then 1 else 0 : Nat) = 0 := by
      rw [r]; rfl
    refine ⟨fun _ => ?_, fun h0 => ?_⟩
    · show is_max_count counts.1
        (map_count counts.1 (determine_transform.best counts).best_offset)
      rw [r2]
      exact is_max_count_max_value _ s1
    · exact absurd hflag h0

theorem returned_offset_attains_maximum_witness :
    (∃ L counts,
      determine_transform.scan whitelist_scenario detection_scenario_reverse 10000
        = .ok (L, counts) ∧
      ((2, 4, 1).2.2 = 0 → is_max_count counts.1 (map_count counts.1 (2, 4, 1).1)) ∧
      ((2, 4, 1).2.2 ≠ 0 → is_max_count counts.2 (map_count counts.2 (2, 4, 1).1))) ∧
    determine_transform whitelist_scenario detection_scenario_forward 10000
      = .ok (2, 4, 0) ∧
    determine_transform whitelist_scenario detection_scenario_reverse 10000
      = .ok (2, 4, 1) :=
  returned_offset_attains_maximum whitelist_scenario detection_scenario_reverse 10000
    (2, 4, 1) rfl

theorem determine_transform_of_scan_error {w f : List Char} {n : Int} {e : Exception}
    (h : determine_transform.scan w f n = .error e) : determine_transform w f n = .error e := by
  unfold determine_transform
  rw [h]

theorem determine_transform_of_scan_ok {w f : List Char} {n : Int}
    {scanned : Nat × (List (Nat × Nat) × List (Nat × Nat))}
    (h : determine_transform.scan w f n = .ok scanned) :
    determine_transform w f n
      = .ok ((determine_transform.best scanned.2).best_offset, scanned.1,
             if (determine_transform.best scanned.2).best_rc then 1 else 0) := by
  unfold determine_transform
  rw [h]

theorem determine_transform_uniform (w f : List Char) (n : Int) (L : Nat)
    (hne : read_whitelist w ≠ [])
    (hv : ∀ b ∈ read_whitelist w, ∀ c ∈ b, is_nucleotide c)
    (hL : ∀ b ∈ read_whitelist w, b.length = L) :
    (∀ e, determine_transform w f n = .error e → e = .out_of_range_substr) ∧
    (∀ t, determine_transform w f n = .ok t → t.2.1 = L) ∧
    ((∀ r ∈ read_fastq f n, L ≤ r.sequence.length + 1) →
      ∃ o rc, determine_transform w f n = .ok (o, L, rc)) := by
  obtain ⟨wrc, _, hscan⟩ := scan_of_valid_whitelist w f n hv
  rw [barcode_length_uniform _ L hne hL] at hscan
  simp only at hscan
  refine ⟨?_, ?_, ?_⟩
  · intro e he
    cases hr : determine_transform.scan_records (read_whitelist w) wrc L (read_fastq f n)
        ([], []) with
    | error e' =>
      rw [hr] at hscan
      rw [determine_transform_of_scan_error hscan] at he
      cases he
      exact scan_records_error_kind _ _ _ _ _ _ hr
    | ok c =>
      rw [hr] at hscan
      rw [determine_transform_of_scan_ok hscan] at he
      cases he
  · intro t ht
    obtain ⟨L', counts, hs, rfl⟩ := determine_transform_eq_ok ht
    obtain ⟨_, _, hbl⟩ := scan_eq_ok hs
    rw [barcode_length_uniform _ L hne hL] at hbl
    cases hbl
    rfl
  · intro hlen
    obtain ⟨c, hc⟩ := scan_records_returns (read_whitelist w) wrc L (read_fastq f n) hlen
      ([], [])
    rw [hc] at hscan
    exact ⟨_, _, determine_transform_of_scan_ok hscan⟩

/-- C8 (counterexample): with the uniform-length whitelist {"AACX"} and an empty
sample the detector throws the invalid-symbol exception, and with the whitelist
{"AACC"} and a sample whose only record has the two-character sequence "NN", in
which no window can match, it throws `std::out_of_range` from `substr`; in neither
case does it return (0, 4, false). -/
theorem no_match_detection_can_throw :
    read_whitelist "AACX\n".toList = ["AACX".toList] ∧
    read_fastq [] 10000 = [] ∧
    determine_transform "AACX\n".toList [] 10000 = .error .out_of_range_map_at ∧
    read_whitelist whitelist_scenario = ["AACC".toList] ∧
    (read_fastq detection_scenario_short 10000).map FASTQRecord.sequence = ["NN".toList] ∧
    determine_transform whitelist_scenario detection_scenario_short 10000
      = .error .out_of_range_substr :=
  ⟨rfl, rfl, rfl, rfl, rfl, rfl⟩

/-- C8 (amended): for every whitelist whose barcodes all have length `L` and hold
only valid nucleotide symbols, and every sample (the empty one included) whose
sequences all have at least `L - 1` characters and in which no window of length `L`
is a whitelist barcode or the reverse complement of one, the detector returns
(0, L, 0), offset 0 and forward orientation, without throwing. -/
theorem no_match_returns_default (w f : List Char) (n : Int) (L : Nat)
    (hne : read_whitelist w ≠ [])
    (hL : ∀ b ∈ read_whitelist w, b.length = L)
    (hv : ∀ b ∈ read_whitelist w, ∀ c ∈ b, is_nucleotide c)
    (hlen : ∀ r ∈ read_fastq f n, L ≤ r.sequence.length + 1)
    (hno : ∀ r ∈ read_fastq f n, ∀ o, o + L ≤ r.sequence.length →
      slice r.sequence o (o + L) ∉ read_whitelist w ∧
      ∀ b ∈ read_whitelist w, reverse_complement b ≠ .ok (slice r.sequence o (o + L))) :
    determine_transform w f n = .ok (0, L, 0) := by
  obtain ⟨wrc, hwrc, hscan⟩ := scan_of_valid_whitelist w f n hv
  rw [barcode_length_uniform _ L hne hL] at hscan
  have hno' : ∀ r ∈ read_fastq f n, ∀ o, o + L ≤ r.sequence.length →
      slice r.sequence o (o + L) ∉ read_whitelist w ∧ slice r.sequence o (o + L) ∉ wrc := by
    intro r hr o ho
    obtain ⟨h1, h2⟩ := hno r hr o ho
    refine ⟨h1, fun hm => ?_⟩
    obtain ⟨b, hb, hrc⟩ := (hwrc _).mp hm
    exact h2 b hb hrc
  simp only [scan_records_no_match _ _ _ _ hlen hno'] at hscan
  rw [determine_transform_of_scan_ok hscan]
  rfl

theorem no_match_returns_default_witness :
    determine_transform whitelist_scenario detection_scenario_no_match 10000
      = .ok (0, 4, 0) :=
  no_match_returns_default whitelist_scenario detection_scenario_no_match 10000 4
    (by decide) (by decide) (by decide)
    (by
      intro r hr
      have hs : read_fastq detection_scenario_no_match 10000
          = [{ name := "@r1".toList, comment := "+".toList,
               sequence := "NNNNNN".toList, quality := "IIIIII".toList },
             { name := "@r2".toList, comment := "+".toList,
               sequence := "ACG".toList, quality := "III".toList }] := rfl
      rw [hs] at hr
      simp only [List.mem_cons, List.mem_singleton, List.not_mem_nil, or_false] at hr
      rcases hr with rfl | rfl <;> decide)
    (by
      intro r hr o ho
      have hs : read_fastq detection_scenario_no_match 10000
          = [{ name := "@r1".toList, comment := "+".toList,
               sequence := "NNNNNN".toList, quality := "IIIIII".toList },
             { name := "@r2".toList, comment := "+".toList,
               sequence := "ACG".toList, quality := "III".toList }] := rfl
      have hw : read_whitelist whitelist_scenario = ["AACC".toList] := rfl
      rw [hs] at hr
      rw [hw]
      simp only [List.mem_cons, List.mem_singleton, List.not_mem_nil, or_false] at hr
      rcases hr with rfl | rfl
      · have ho' : o ≤ 2 := by
          have : o + 4 ≤ 6 := ho
          omega
        interval_cases o <;> decide
      · have : o + 4 ≤ 3 := ho
        omega)

/-! ## Enough fuel for the read loops -/

theorem getline_extract_rest_length (buf : List Char) :
    ∀ rest, (getline.extract buf).2 = some rest → rest.length < buf.length := by
  induction buf with
  | nil => intro rest h; simp [getline.extract] at h
  | cons c cs ih =>
    intro rest h
    unfold getline.extract at h
    by_cases hc : c = '\n'
    · rw [if_pos hc] at h
      cases h
      simp
    · rw [if_neg hc] at h
      have := ih rest h
      simp
      omega

theorem getline_extract_none (buf : List Char) (h : (getline.extract buf).2 = none) :
    (getline.extract buf).1 = buf := by
  induction buf with
  | nil => rfl
  | cons c cs ih =>
    unfold getline.extract at h ⊢
    by_cases hc : c = '\n'
    · rw [if_pos hc] at h; cases h
    · rw [if_neg hc] at h ⊢
      simp only [List.cons.injEq, true_and]
      exact ih h

theorem getline_buf_length (is : istream) (str : List Char) :
    (getline is str).1.buf.length ≤ is.buf.length ∧
    ((getline is str).1.failbit = false → (getline is str).1.buf.length < is.buf.length) := by
  unfold getline
  by_cases hg : is.good = true
  · rw [if_pos hg]
    cases hx : (getline.extract is.buf).2 with
    | some rest =>
      have hlt := getline_extract_rest_length is.buf rest hx
      have he : getline.extract is.buf = ((getline.extract is.buf).1, some rest) :=
        Prod.ext rfl hx
      rw [he]
      exact ⟨by simp; omega, fun _ => by simp; omega⟩
    | none =>
      have hl := getline_extract_none is.buf hx
      have he : getline.extract is.buf = (is.buf, none) :=
        Prod.ext hl hx
      rw [he]
      refine ⟨by simp, fun hf => ?_⟩
      simp only [List.isEmpty_eq_false] at hf
      simp only [List.length_nil]
      exact List.length_pos.mpr hf
  · rw [if_neg hg]
    exact ⟨le_refl _, fun hf => by simp at hf⟩

theorem operator_extract_buf_length (is : istream) (record : FASTQRecord)
    (h : (operator_extract is record).1.fail = false) :
    (operator_extract is record).1.buf.length < is.buf.length := by
  unfold operator_extract at h ⊢
  simp only [istream.fail] at h
  have h1 := (getline_buf_length is record.name).1
  have h2 := (getline_buf_length (getline is record.name).1 record.sequence).1
  have h3 := (getline_buf_length
    (getline (getline is record.name).1 record.sequence).1 record.comment).1
  have h4 := (getline_buf_length
    (getline (getline (getline is record.name).1 record.sequence).1 record.comment).1
    record.quality).2 h
  simp only
  omega

/-- Enough fuel: `read_fastq.loop` gives the same result for every fuel greater than
the number of unread characters, so the fuel passed by `read_fastq` never cuts the
loop short. -/
theorem read_fastq_loop_fuel (first_n : Int) :
    ∀ (fuel fuel' : Nat) (is : istream) (record : FASTQRecord) (records : List FASTQRecord)
      (record_count : Nat),
      is.buf.length < fuel → is.buf.length < fuel' →
      read_fastq.loop first_n fuel is record records record_count
        = read_fastq.loop first_n fuel' is record records record_count := by
  intro fuel
  induction fuel with
  | zero => intro fuel' is record records record_count h; omega
  | succ k ih =>
    intro fuel' is record records record_count h h'
    obtain ⟨k', rfl⟩ : ∃ k', fuel' = k' + 1 := ⟨fuel' - 1, by omega⟩
    unfold read_fastq.loop
    simp only
    by_cases hf : (operator_extract is record).1.fail = true
    · rw [if_pos hf, if_pos hf]
    · rw [if_neg hf, if_neg hf]
      have hlt := operator_extract_buf_length is record (by simpa using hf)
      split
      · rfl
      · exact ih k' _ _ _ _ (by omega) (by omega)

/-- Enough fuel: `read_whitelist.loop` gives the same result for every fuel greater
than the number of unread characters. -/
theorem read_whitelist_loop_fuel :
    ∀ (fuel fuel' : Nat) (is : istream) (line : List Char) (acc : List (List Char)),
      is.buf.length < fuel → is.buf.length < fuel' →
      read_whitelist.loop fuel is line acc = read_whitelist.loop fuel' is line acc := by
  intro fuel
  induction fuel with
  | zero => intro fuel' is line acc h; omega
  | succ k ih =>
    intro fuel' is line acc h h'
    obtain ⟨k', rfl⟩ : ∃ k', fuel' = k' + 1 := ⟨fuel' - 1, by omega⟩
    unfold read_whitelist.loop
    simp only
    by_cases hf : (getline is line).1.fail = true
    · rw [if_pos hf, if_pos hf]
    · rw [if_neg hf, if_neg hf]
      have hlt := (getline_buf_length is line).2 (by simpa [istream.fail] using hf)
      exact ih k' _ _ _ (by omega) (by omega)

/-- Enough fuel: `main.loop` gives the same result for every fuel greater than the
number of unread characters. -/
theorem main_loop_fuel (best_offset barcode_length : Nat) (best_rc : Bool) :
    ∀ (fuel fuel' : Nat) (is : istream) (record : FASTQRecord)
      (counts : List (List Char × Nat)) (out : List Char),
      is.buf.length < fuel → is.buf.length < fuel' →
      main.loop best_offset barcode_length best_rc fuel is record counts out
        = main.loop best_offset barcode_length best_rc fuel' is record counts out := by
  intro fuel
  induction fuel with
  | zero => intro fuel' is record counts out h; omega
  | succ k ih =>
    intro fuel' is record counts out h h'
    obtain ⟨k', rfl⟩ : ∃ k', fuel' = k' + 1 := ⟨fuel' - 1, by omega⟩
    unfold main.loop
    simp only
    by_cases hf : (operator_extract is record).1.fail = true
    · rw [if_pos hf, if_pos hf]
    · rw [if_neg hf, if_neg hf]
      have hlt := operator_extract_buf_length is record (by simpa using hf)
      cases (operator_extract is record).2.transform best_offset barcode_length best_rc with
      | error e => rfl
      | ok r => exact ih k' _ _ _ _ (by omega) (by omega)

/-! ## Sum of the counts -/

theorem counts_sum_increment (m : List (List Char × Nat)) (key : List Char) :
    counts_sum (unordered_map_increment m key) = counts_sum m + 1 := by
  induction m with
  | nil => simp [unordered_map_increment, counts_sum]
  | cons kv m ih =>
    obtain ⟨k, v⟩ := kv
    unfold unordered_map_increment
    by_cases hk : key = k
    · rw [if_pos hk]
      simp only [counts_sum]
      omega
    · rw [if_neg hk]
      simp only [counts_sum, ih]
      omega

theorem counts_sum_foldl (records : List FASTQRecord) (m : List (List Char × Nat)) :
    counts_sum (records.foldl (fun c r => unordered_map_increment c r.sequence) m)
      = counts_sum m + records.length := by
  induction records generalizing m with
  | nil => simp
  | cons r rs ih =>
    rw [List.foldl_cons, ih, counts_sum_increment, List.length_cons]
    omega

/-- C11: every execution of `counts[record.sequence]++` raises the sum of the counts
by exactly one; hence after the loop of `main` has processed the first `k` records of
an input on which the transform does not fail the sum of the counts is `k`, and at the
end of the run it is the number of records of the input. -/
theorem counts_sum_eq_records_processed (best_offset barcode_length : Nat) (best_rc : Bool)
    (records transformed : List FASTQRecord)
    (hnl : ∀ r ∈ records, r.newline_free)
    (ht : List.Forall₂
      (fun r r' => r.transform best_offset barcode_length best_rc = .ok r')
      records transformed) :
    (∀ m key, counts_sum (unordered_map_increment m key) = counts_sum m + 1) ∧
    (∀ k, k ≤ records.length →
      ∃ out counts,
        main.transform_records best_offset barcode_length best_rc
            (file_of_records (records.take k)) = .ok (out, counts) ∧
        counts_sum counts = k) ∧
    (∃ out counts,
      main.transform_records best_offset barcode_length best_rc (file_of_records records)
        = .ok (out, counts) ∧
      counts_sum counts = records.length) := by
  have key : ∀ (rs ts : List FASTQRecord), (∀ r ∈ rs, r.newline_free) →
      List.Forall₂ (fun r r' => r.transform best_offset barcode_length best_rc = .ok r')
        rs ts →
      ∃ out counts,
        main.transform_records best_offset barcode_length best_rc (file_of_records rs)
          = .ok (out, counts) ∧
        counts_sum counts = rs.length := by
    intro rs ts hrs hts
    refine ⟨ts.foldl operator_insert [],
      ts.foldl (fun c r => unordered_map_increment c r.sequence) [], ?_, ?_⟩
    · unfold main.transform_records istream.open
      exact main_loop_file_of_records best_offset barcode_length best_rc rs ts hts hrs
        _ _ _ _ (Nat.lt_succ_of_le (length_le_file_of_records rs))
    · rw [counts_sum_foldl, hts.length_eq]
      simp [counts_sum]
  refine ⟨counts_sum_increment, fun k hk => ?_, key records transformed hnl ht⟩
  obtain ⟨out, counts, h1, h2⟩ := key (records.take k) (transformed.take k)
    (fun r hr => hnl r (List.mem_of_mem_take hr)) (List.forall₂_take k ht)
  refine ⟨out, counts, h1, ?_⟩
  rw [h2, List.length_take]
  omega

theorem counts_sum_eq_records_processed_witness :
    (∀ m key, counts_sum (unordered_map_increment m key) = counts_sum m + 1) ∧
    (∀ k, k ≤ pipeline_scenario_records.length →
      ∃ out counts,
        main.transform_records 1 3 false
            (file_of_records (pipeline_scenario_records.take k)) = .ok (out, counts) ∧
        counts_sum counts = k) ∧
    (∃ out counts,
      main.transform_records 1 3 false (file_of_records pipeline_scenario_records)
        = .ok (out, counts) ∧
      counts_sum counts = pipeline_scenario_records.length) :=
  counts_sum_eq_records_processed 1 3 false pipeline_scenario_records
    pipeline_scenario_transformed (by decide)
    (List.Forall₂.cons rfl (List.Forall₂.cons rfl List.Forall₂.nil))

/-! ## Further properties of the sequence utilities and of the transform -/

/-- C19: on a record whose sequence and quality have the same length, with `offset`
at most that length, a successful `transform` leaves the name and the comment
unchanged and leaves a sequence and a quality of the same length, the minimum of
`length` and of the original length minus `offset`; without `rc` it always succeeds. -/
theorem transform_preserves_record_shape (record out : FASTQRecord) (offset length : Nat)
    (rc : Bool) (hq : record.sequence.length = record.quality.length)
    (ho : offset ≤ record.sequence.length)
    (h : record.transform offset length rc = .ok out) :
    out.name = record.name ∧ out.comment = record.comment ∧
    out.sequence.length = min length (record.sequence.length - offset) ∧
    out.quality.length = min length (record.sequence.length - offset) ∧
    out.sequence.length = out.quality.length ∧
    ∃ out', record.transform offset length false = .ok out' := by
  have ho2 : offset ≤ record.quality.length := by omega
  refine ⟨?_, ?_, ?_, ?_, ?_, ⟨_, transform_forward ho ho2 length⟩⟩ <;>
  · cases rc with
    | false =>
      rw [transform_forward ho ho2] at h
      cases h
      simp [hq]
    | true =>
      rw [transform_reverse ho ho2] at h
      cases hrc : reverse_complement ((record.sequence.drop offset).take length) with
      | error e => rw [hrc] at h; cases h
      | ok t =>
        rw [hrc] at h
        obtain ⟨_, rfl⟩ := reverse_complement_eq_ok hrc
        cases h
        simp [hq]

theorem transform_preserves_record_shape_witness :
    "@r".toList = "@r".toList ∧ "+".toList = "+".toList ∧
    "AC".toList.length = min 5 ("NNGT".toList.length - 2) ∧
    "LK".toList.length = min 5 ("NNGT".toList.length - 2) ∧
    "AC".toList.length = "LK".toList.length ∧
    ∃ out', (FASTQRecord.mk "@r".toList "+".toList "NNGT".toList "IJKL".toList).transform
      2 5 false = .ok out' :=
  transform_preserves_record_shape
    (FASTQRecord.mk "@r".toList "+".toList "NNGT".toList "IJKL".toList)
    (FASTQRecord.mk "@r".toList "+".toList "AC".toList "LK".toList) 2 5 true
    (by decide) (by decide) rfl

/-- C20: writing a list of records whose fields hold no newline with `operator_insert`
and reading the text back with `operator_extract`, as `read_fastq` does without a
limit, returns the same records in the same order, each line in the field it was
written from: name, sequence, comment, quality. -/
theorem read_fastq_write_round_trip (records : List FASTQRecord)
    (hnl : ∀ r ∈ records, r.newline_free) :
    read_fastq (records.foldl operator_insert []) (-1) = records ∧
    (∀ first_n : Int, (records.length : Int) ≤ first_n →
      read_fastq (records.foldl operator_insert []) first_n = records) ∧
    read_fastq "a\nb\nc\nd\n".toList (-1)
      = [{ name := "a".toList, sequence := "b".toList, comment := "c".toList,
           quality := "d".toList }] := by
  refine ⟨?_, fun first_n hn => ?_, rfl⟩
  · show read_fastq (file_of_records records) (-1) = records
    rw [read_fastq_file_of_records _ _ hnl]
    simp
  · show read_fastq (file_of_records records) first_n = records
    rw [read_fastq_file_of_records _ _ hnl]
    split
    · rfl
    · exact List.take_of_length_le (by omega)

theorem read_fastq_write_round_trip_witness :
    read_fastq (pipeline_scenario_records.foldl operator_insert []) (-1)
      = pipeline_scenario_records ∧
    (∀ first_n : Int, (pipeline_scenario_records.length : Int) ≤ first_n →
      read_fastq (pipeline_scenario_records.foldl operator_insert []) first_n
        = pipeline_scenario_records) ∧
    read_fastq "a\nb\nc\nd\n".toList (-1)
      = [{ name := "a".toList, sequence := "b".toList, comment := "c".toList,
           quality := "d".toList }] :=
  read_fastq_write_round_trip pipeline_scenario_records (by decide)

/-! ## Reading lines in groups of four -/

theorem getline_last_line (last str : List Char) (h : '\n' ∉ last) :
    getline { buf := last, eofbit := false, failbit := false } str
      = ({ buf := [], eofbit := true, failbit := last.isEmpty }, last) := by
  have he : getline.extract last = (last, none) := by
    induction last with
    | nil => rfl
    | cons c cs ih =>
      have hc : c ≠ '\n' := fun e => h (e ▸ List.mem_cons_self _ _)
      have hcs : '\n' ∉ cs := fun e => h (List.mem_cons_of_mem _ e)
      simp [getline.extract, hc, ih hcs]
  simp [getline, istream.good, he]

theorem getline_after_eof (b : Bool) (str : List Char) :
    getline { buf := [], eofbit := true, failbit := b } str
      = ({ buf := [], eofbit := true, failbit := true }, str) := by
  simp [getline, istream.good]

theorem operator_extract_after_eof (b : Bool) (old : FASTQRecord) :
    (operator_extract { buf := [], eofbit := true, failbit := b } old).1.fail = true := by
  simp [operator_extract, getline_after_eof, istream.fail]

theorem file_of_lines_four (a b c d : List Char) (rest : List (List Char)) (tail : List Char) :
    file_of_lines (a :: b :: c :: d :: rest) ++ tail
      = operator_insert [] { name := a, comment := c, sequence := b, quality := d }
          ++ (file_of_lines rest ++ tail) := by
  simp [file_of_lines, operator_insert]

theorem operator_extract_partial (lines : List (List Char)) (tail : List Char)
    (hnl : ∀ l ∈ lines, '\n' ∉ l) (ht : '\n' ∉ tail) (old : FASTQRecord)
    (hshort : lines.length < 3 ∨ (lines.length = 3 ∧ tail = [])) :
    (operator_extract
      { buf := file_of_lines lines ++ tail, eofbit := false, failbit := false } old).1.fail
      = true := by
  match lines, hnl, hshort with
  | [], _, _ =>
    simp [operator_extract, file_of_lines, getline_last_line _ _ ht, getline_after_eof,
      istream.fail]
  | [a], hnl, _ =>
    have ha := hnl a (by simp)
    simp [operator_extract, file_of_lines, getline_line _ _ _ ha, getline_last_line _ _ ht,
      getline_after_eof, istream.fail]
  | [a, b], hnl, _ =>
    have ha := hnl a (by simp)
    have hb := hnl b (by simp)
    simp [operator_extract, file_of_lines, getline_line _ _ _ ha, getline_line _ _ _ hb,
      getline_last_line _ _ ht, getline_after_eof, istream.fail]
  | [a, b, c], hnl, hs =>
    have ha := hnl a (by simp)
    have hb := hnl b (by simp)
    have hc := hnl c (by simp)
    have htail : tail = [] := by
      rcases hs with hs | hs
      · simp at hs
      · exact hs.2
    subst htail
    simp [operator_extract, file_of_lines, getline_line _ _ _ ha, getline_line _ _ _ hb,
      getline_line _ _ _ hc, getline_end_of_input, istream.fail]
  | _ :: _ :: _ :: _ :: _, _, hs =>
    simp at hs
    omega

theorem operator_extract_last_unterminated (a b c tail : List Char)
    (ha : '\n' ∉ a) (hb : '\n' ∉ b) (hc : '\n' ∉ c) (ht : '\n' ∉ tail) (hne : tail ≠ [])
    (old : FASTQRecord) :
    operator_extract
        { buf := file_of_lines [a, b, c] ++ tail, eofbit := false, failbit := false } old
      = ({ buf := [], eofbit := true, failbit := false },
         { name := a, comment := c, sequence := b, quality := tail }) := by
  simp [operator_extract, file_of_lines, getline_line _ _ _ ha, getline_line _ _ _ hb,
    getline_line _ _ _ hc, getline_last_line _ _ ht, hne]

theorem records_of_lines_short (lines : List (List Char)) (h : lines.length < 4) :
    records_of_lines lines = [] := by
  match lines, h with
  | [], _ => rfl
  | [_], _ => rfl
  | [_, _], _ => rfl
  | [_, _, _], _ => rfl
  | _ :: _ :: _ :: _ :: _, h => simp at h; omega

theorem records_of_lines_length (lines : List (List Char)) :
    (records_of_lines lines).length = lines.length / 4 := by
  match lines with
  | [] => rfl
  | [_] => simp [records_of_lines]
  | [_, _] => simp [records_of_lines]
  | [_, _, _] => simp [records_of_lines]
  | a :: b :: c :: d :: rest =>
    have ih := records_of_lines_length rest
    simp only [records_of_lines, List.length_cons, ih]
    omega

theorem records_of_lines_getElem? (lines : List (List Char)) (k : Nat)
    (hk : k < lines.length / 4) :
    ∃ a b c d, lines[4 * k]? = some a ∧ lines[4 * k + 1]? = some b ∧
      lines[4 * k + 2]? = some c ∧ lines[4 * k + 3]? = some d ∧
      (records_of_lines lines)[k]?
        = some { name := a, sequence := b, comment := c, quality := d } := by
  match lines, k, hk with
  | [], k, hk => simp only [List.length_nil] at hk; omega
  | [_], k, hk => simp only [List.length_cons, List.length_nil] at hk; omega
  | [_, _], k, hk => simp only [List.length_cons, List.length_nil] at hk; omega
  | [_, _, _], k, hk => simp only [List.length_cons, List.length_nil] at hk; omega
  | a :: b :: c :: d :: rest, 0, _ =>
    exact ⟨a, b, c, d, by simp, by simp, by simp, by simp, by simp [records_of_lines]⟩
  | a :: b :: c :: d :: rest, k + 1, hk =>
    have hk' : k < rest.length / 4 := by
      simp only [List.length_cons] at hk
      omega
    obtain ⟨a', b', c', d', h1, h2, h3, h4, h5⟩ := records_of_lines_getElem? rest k hk'
    refine ⟨a', b', c', d', ?_, ?_, ?_, ?_, ?_⟩
    · rw [show 4 * (k + 1) = 4 * k + 1 + 1 + 1 + 1 by ring]
      simpa using h1
    · rw [show 4 * (k + 1) + 1 = 4 * k + 1 + 1 + 1 + 1 + 1 by ring]
      simpa using h2
    · rw [show 4 * (k + 1) + 2 = 4 * k + 2 + 1 + 1 + 1 + 1 by ring]
      simpa using h3
    · rw [show 4 * (k + 1) + 3 = 4 * k + 3 + 1 + 1 + 1 + 1 by ring]
      simpa using h4
    · simpa [records_of_lines] using h5

theorem records_of_lines_newline_free (lines : List (List Char))
    (hnl : ∀ l ∈ lines, '\n' ∉ l) : ∀ r ∈ records_of_lines lines, r.newline_free := by
  match lines, hnl with
  | [], _ => intro r hr; simp [records_of_lines] at hr
  | [_], _ => intro r hr; simp [records_of_lines] at hr
  | [_, _], _ => intro r hr; simp [records_of_lines] at hr
  | [_, _, _], _ => intro r hr; simp [records_of_lines] at hr
  | a :: b :: c :: d :: rest, hnl =>
    intro r hr
    simp only [records_of_lines, List.mem_cons] at hr
    rcases hr with rfl | hr
    · exact ⟨hnl a (by simp), hnl b (by simp), hnl c (by simp), hnl d (by simp)⟩
    · exact records_of_lines_newline_free rest
        (fun l hl => hnl l (by simp [hl])) r hr

/-- Reading a text made of the terminated lines `lines` followed by the unterminated
line `tail` (which is no line when it is empty) yields the records of these lines. -/
theorem read_fastq_loop_file_of_lines (lines : List (List Char)) (tail : List Char)
    (hnl : ∀ l ∈ lines, '\n' ∉ l) (ht : '\n' ∉ tail)
    (fuel : Nat) (old : FASTQRecord) (acc : List FASTQRecord) (record_count : Nat)
    (hf : lines.length < fuel) :
    read_fastq.loop (-1) fuel
        { buf := file_of_lines lines ++ tail, eofbit := false, failbit := false }
        old acc record_count
      = acc ++ records_of_lines (lines ++ if tail = [] then [] else [tail]) := by
  obtain ⟨k, rfl⟩ : ∃ k, fuel = k + 1 := ⟨fuel - 1, by omega⟩
  match lines, hnl, hf with
  | a :: b :: c :: d :: rest, hnl, hf =>
    have hr : ({ name := a, comment := c, sequence := b, quality := d } :
        FASTQRecord).newline_free :=
      ⟨hnl a (by simp), hnl b (by simp), hnl c (by simp), hnl d (by simp)⟩
    rw [file_of_lines_four]
    simp only [read_fastq.loop, operator_extract_record _ hr, istream.fail]
    simp only [Bool.false_eq_true, if_false]
    rw [if_neg (by simp)]
    rw [read_fastq_loop_file_of_lines rest tail (fun l hl => hnl l (by simp [hl])) ht k _ _ _
      (by simp only [List.length_cons] at hf; omega)]
    simp [records_of_lines]
  | [a, b, c], hnl, hf =>
    by_cases hne : tail = []
    · subst hne
      have hfail := operator_extract_partial [a, b, c] [] hnl ht old (Or.inr ⟨rfl, rfl⟩)
      simp only [read_fastq.loop, hfail, if_true]
      simp [records_of_lines]
    · obtain ⟨k', rfl⟩ : ∃ k', k = k' + 1 := ⟨k - 1, by simp at hf; omega⟩
      have hex := operator_extract_last_unterminated a b c tail (hnl a (by simp))
        (hnl b (by simp)) (hnl c (by simp)) ht hne old
      have h2 := operator_extract_after_eof false
        { name := a, comment := c, sequence := b, quality := tail }
      simp only [istream.fail] at h2
      simp only [read_fastq.loop, hex, istream.fail, h2]
      simp [records_of_lines, hne]
  | [a, b], hnl, hf =>
    have hfail := operator_extract_partial [a, b] tail hnl ht old (Or.inl (by simp))
    simp only [read_fastq.loop, hfail, if_true]
    rw [records_of_lines_short _ (by split <;> simp)]
    simp
  | [a], hnl, hf =>
    have hfail := operator_extract_partial [a] tail hnl ht old (Or.inl (by simp))
    simp only [read_fastq.loop, hfail, if_true]
    rw [records_of_lines_short _ (by split <;> simp)]
    simp
  | [], hnl, hf =>
    have hfail := operator_extract_partial [] tail hnl ht old (Or.inl (by simp))
    simp only [read_fastq.loop, hfail, if_true]
    rw [records_of_lines_short _ (by split <;> simp)]
    simp

theorem main_loop_file_of_lines (best_offset barcode_length : Nat) (best_rc : Bool)
    (lines : List (List Char)) (tail : List Char)
    (hnl : ∀ l ∈ lines, '\n' ∉ l) (ht : '\n' ∉ tail)
    (fuel : Nat) (old : FASTQRecord) (counts : List (List Char × Nat)) (out : List Char)
    (hf : lines.length < fuel) :
    main.loop best_offset barcode_length best_rc fuel
        { buf := file_of_lines lines ++ tail, eofbit := false, failbit := false }
        old counts out
      = transform_and_count best_offset barcode_length best_rc
          (records_of_lines (lines ++ if tail = [] then [] else [tail])) counts out := by
  obtain ⟨k, rfl⟩ : ∃ k, fuel = k + 1 := ⟨fuel - 1, by omega⟩
  match lines, hnl, hf with
  | a :: b :: c :: d :: rest, hnl, hf =>
    have hr : ({ name := a, comment := c, sequence := b, quality := d } :
        FASTQRecord).newline_free :=
      ⟨hnl a (by simp), hnl b (by simp), hnl c (by simp), hnl d (by simp)⟩
    rw [file_of_lines_four]
    simp only [main.loop, operator_extract_record _ hr, istream.fail]
    simp only [Bool.false_eq_true, if_false, List.cons_append, records_of_lines,
      transform_and_count]
    cases ({ name := a, comment := c, sequence := b, quality := d } :
        FASTQRecord).transform best_offset barcode_length best_rc with
    | error e => rfl
    | ok r' =>
      exact main_loop_file_of_lines best_offset barcode_length best_rc rest tail
        (fun l hl => hnl l (by simp [hl])) ht k _ _ _
        (by simp only [List.length_cons] at hf; omega)
  | [a, b, c], hnl, hf =>
    by_cases hne : tail = []
    · subst hne
      have hfail := operator_extract_partial [a, b, c] [] hnl ht old (Or.inr ⟨rfl, rfl⟩)
      simp only [main.loop, hfail, if_true]
      simp [records_of_lines, transform_and_count]
    · obtain ⟨k', rfl⟩ : ∃ k', k = k' + 1 := ⟨k - 1, by simp at hf; omega⟩
      have hex := operator_extract_last_unterminated a b c tail (hnl a (by simp))
        (hnl b (by simp)) (hnl c (by simp)) ht hne old
      simp only [main.loop, hex, istream.fail, if_neg hne]
      simp only [Bool.false_eq_true, if_false, List.cons_append, List.nil_append,
        records_of_lines, transform_and_count]
      cases ({ name := a, comment := c, sequence := b, quality := tail } :
          FASTQRecord).transform best_offset barcode_length best_rc with
      | error e => rfl
      | ok r' =>
        have h2 := operator_extract_after_eof false r'
        simp only [istream.fail] at h2
        simp [main.loop, h2, istream.fail]
  | [a, b], hnl, hf =>
    have hfail := operator_extract_partial [a, b] tail hnl ht old (Or.inl (by simp))
    simp only [main.loop, hfail, if_true]
    rw [records_of_lines_short _ (by split <;> simp)]
    rfl
  | [a], hnl, hf =>
    have hfail := operator_extract_partial [a] tail hnl ht old (Or.inl (by simp))
    simp only [main.loop, hfail, if_true]
    rw [records_of_lines_short _ (by split <;> simp)]
    rfl
  | [], hnl, hf =>
    have hfail := operator_extract_partial [] tail hnl ht old (Or.inl (by simp))
    simp only [main.loop, hfail, if_true]
    rw [records_of_lines_short _ (by split <;> simp)]
    rfl

theorem main_loop_records (best_offset barcode_length : Nat) (best_rc : Bool)
    (records : List FASTQRecord) (hnl : ∀ r ∈ records, r.newline_free) :
    ∀ (fuel : Nat) (old : FASTQRecord) (counts : List (List Char × Nat)) (out : List Char),
      records.length < fuel →
      main.loop best_offset barcode_length best_rc fuel
          { buf := file_of_records records, eofbit := false, failbit := false } old counts out
        = transform_and_count best_offset barcode_length best_rc records counts out := by
  induction records with
  | nil =>
    intro fuel old counts out hf
    obtain ⟨k, rfl⟩ : ∃ k, fuel = k + 1 := ⟨fuel - 1, by simp at hf; omega⟩
    simp [main.loop, file_of_records, operator_extract_end_of_input, transform_and_count]
  | cons r rs ih =>
    intro fuel old counts out hf
    obtain ⟨k, rfl⟩ : ∃ k, fuel = k + 1 := ⟨fuel - 1, by simp at hf; omega⟩
    rw [file_of_records_cons]
    simp only [main.loop, operator_extract_record r (hnl r (List.mem_cons_self _ _)),
      istream.fail, transform_and_count]
    simp only [Bool.false_eq_true, if_false]
    cases r.transform best_offset barcode_length best_rc with
    | error e => rfl
    | ok r' =>
      exact ih (fun x hx => hnl x (List.mem_cons_of_mem _ hx)) k _ _ _
        (by simp at hf; omega)

/-- C12: on an input of `n` newline-terminated lines, reading yields `n / 4` records,
the `k`-th made of the lines `4k`, `4k+1`, `4k+2`, `4k+3` as name, sequence, comment
and quality; the one to three lines left over when `n` is not a multiple of four
are dropped without any exception, in `read_fastq` and in the loop of `main` alike.
The same holds when the last line lacks its newline. -/
theorem read_groups_of_four_lines (lines : List (List Char))
    (hnl : ∀ l ∈ lines, '\n' ∉ l) :
    read_fastq (file_of_lines lines) (-1) = records_of_lines lines ∧
    (records_of_lines lines).length = lines.length / 4 ∧
    (∀ k, k < lines.length / 4 →
      ∃ a b c d, lines[4 * k]? = some a ∧ lines[4 * k + 1]? = some b ∧
        lines[4 * k + 2]? = some c ∧ lines[4 * k + 3]? = some d ∧
        (records_of_lines lines)[k]?
          = some { name := a, sequence := b, comment := c, quality := d }) ∧
    (∀ best_offset barcode_length best_rc,
      main.transform_records best_offset barcode_length best_rc (file_of_lines lines)
        = main.transform_records best_offset barcode_length best_rc
            (file_of_records (records_of_lines lines))) ∧
    (∀ last : List Char, last ≠ [] → '\n' ∉ last →
      read_fastq (file_of_lines lines ++ last) (-1) = records_of_lines (lines ++ [last])) := by
  refine ⟨?_, records_of_lines_length lines, records_of_lines_getElem? lines, ?_, ?_⟩
  · have h := read_fastq_loop_file_of_lines lines [] hnl (by simp)
      ((file_of_lines lines).length + 1)
      { name := [], comment := [], sequence := [], quality := [] } [] 0
      (Nat.lt_succ_of_le (length_le_file_of_lines lines))
    simpa [read_fastq, istream.open] using h
  · intro best_offset barcode_length best_rc
    have h1 := main_loop_file_of_lines best_offset barcode_length best_rc lines [] hnl (by simp)
      ((file_of_lines lines).length + 1)
      { name := [], comment := [], sequence := [], quality := [] } [] []
      (Nat.lt_succ_of_le (length_le_file_of_lines lines))
    have h2 := main_loop_records best_offset barcode_length best_rc (records_of_lines lines)
      (records_of_lines_newline_free lines hnl)
      ((file_of_records (records_of_lines lines)).length + 1)
      { name := [], comment := [], sequence := [], quality := [] } [] []
      (Nat.lt_succ_of_le (length_le_file_of_records _))
    simp only [List.append_nil, if_true] at h1
    unfold main.transform_records istream.open
    rw [h1, h2]
  · intro last hne hlast
    have h := read_fastq_loop_file_of_lines lines last hnl hlast
      ((file_of_lines lines ++ last).length + 1)
      { name := [], comment := [], sequence := [], quality := [] } [] 0
      (by
        have := length_le_file_of_lines lines
        simp only [List.length_append]
        omega)
    simpa [read_fastq, istream.open, hne] using h

theorem read_groups_of_four_lines_witness :
    read_fastq (file_of_lines six_lines_scenario) (-1) = records_of_lines six_lines_scenario ∧
    (records_of_lines six_lines_scenario).length = six_lines_scenario.length / 4 ∧
    (∀ k, k < six_lines_scenario.length / 4 →
      ∃ a b c d, six_lines_scenario[4 * k]? = some a ∧
        six_lines_scenario[4 * k + 1]? = some b ∧
        six_lines_scenario[4 * k + 2]? = some c ∧ six_lines_scenario[4 * k + 3]? = some d ∧
        (records_of_lines six_lines_scenario)[k]?
          = some { name := a, sequence := b, comment := c, quality := d }) ∧
    (∀ best_offset barcode_length best_rc,
      main.transform_records best_offset barcode_length best_rc
          (file_of_lines six_lines_scenario)
        = main.transform_records best_offset barcode_length best_rc
            (file_of_records (records_of_lines six_lines_scenario))) ∧
    (∀ last : List Char, last ≠ [] → '\n' ∉ last →
      read_fastq (file_of_lines six_lines_scenario ++ last) (-1)
        = records_of_lines (six_lines_scenario ++ [last])) :=
  read_groups_of_four_lines six_lines_scenario (by decide)

/-! ## Detector: sequences shorter than the barcode -/

theorem loop_bound_short {size L : Nat} (h : size + 2 ≤ L) (hL : L < 2 ^ 64) :
    size + 1 < determine_transform.loop_bound size L := by
  unfold determine_transform.loop_bound
  omega

theorem loop_bound_eq {size L : Nat} (h : L ≤ size + 1) (hs : size + 1 < 2 ^ 64) :
    determine_transform.loop_bound size L = size + 1 - L := by
  unfold determine_transform.loop_bound
  omega

theorem scan_offsets_short_throws (whitelist whitelist_rc : List (List Char)) (L : Nat)
    (sequence : List Char) (h : sequence.length + 2 ≤ L) (hL : L < 2 ^ 64) :
    ∀ (fuel offset : Nat) (counts : List (Nat × Nat) × List (Nat × Nat)),
      offset ≤ sequence.length + 1 → sequence.length + 2 ≤ fuel + offset →
      determine_transform.scan_offsets whitelist whitelist_rc L sequence fuel offset counts
        = .error .out_of_range_substr := by
  intro fuel
  induction fuel with
  | zero => intro offset counts h1 h2; omega
  | succ k ih =>
    intro offset counts h1 h2
    have hb : offset < determine_transform.loop_bound sequence.length L := by
      have := loop_bound_short h hL
      omega
    unfold determine_transform.scan_offsets
    by_cases ho : offset ≤ sequence.length
    · simp only [if_pos hb, substr_ok ho]
      exact ih _ _ (by omega) (by omega)
    · simp only [if_pos hb, substr_error (Nat.not_le.mp ho)]

theorem scan_record_short_throws (whitelist whitelist_rc : List (List Char)) (L : Nat)
    (record : FASTQRecord) (h : record.sequence.length + 2 ≤ L) (hL : L < 2 ^ 64)
    (counts : List (Nat × Nat) × List (Nat × Nat)) :
    determine_transform.scan_record whitelist whitelist_rc L record counts
      = .error .out_of_range_substr :=
  scan_offsets_short_throws whitelist whitelist_rc L record.sequence h hL _ _ _
    (by omega) (by omega)

/-- C15 (the code at the failing input): with the whitelist {"AACC"} and a sample
whose only record has the sequence "NN", the loop bound `size() - barcode_length + 1`
is `2^64 - 1` instead of `0`, offsets are examined, and the detector throws
`std::out_of_range` from `substr` instead of skipping the record. -/
theorem short_read_makes_detection_throw :
    (read_fastq detection_scenario_short 10000).map FASTQRecord.sequence = ["NN".toList] ∧
    determine_transform.loop_bound "NN".toList.length 4 = 2 ^ 64 - 1 ∧
    substr "NN".toList 0 4 = .ok "NN".toList ∧
    substr "NN".toList 3 4 = .error .out_of_range_substr ∧
    determine_transform whitelist_scenario detection_scenario_short 10000
      = .error .out_of_range_substr :=
  ⟨rfl, by decide, rfl, rfl, rfl⟩

/-! ## Detector: what the counters count -/

theorem map_count_eq_zero_of_lt (m : List (Nat × Nat)) (key : Nat)
    (h : ∀ kv ∈ m, key < kv.1) : map_count m key = 0 := by
  induction m with
  | nil => rfl
  | cons a m ih =>
    obtain ⟨k, v⟩ := a
    have hk : key < k := h (k, v) (List.mem_cons_self _ _)
    unfold map_count
    rw [if_neg (by omega)]
    exact ih (fun kv hkv => h kv (List.mem_cons_of_mem _ hkv))

theorem map_count_map_increment (m : List (Nat × Nat)) (key o : Nat)
    (hs : m.Pairwise (fun a b => a.1 < b.1)) :
    map_count (map_increment m key) o = map_count m o + if o = key then 1 else 0 := by
  induction m with
  | nil =>
    unfold map_increment
    by_cases h : o = key
    · simp [map_count, h]
    · simp [map_count, h]
  | cons a m ih =>
    obtain ⟨k, v⟩ := a
    rw [List.pairwise_cons] at hs
    obtain ⟨hk, hm⟩ := hs
    unfold map_increment
    by_cases h1 : key < k
    · rw [if_pos h1]
      by_cases h : o = key
      · subst h
        have hz : map_count ((k, v) :: m) o = 0 := by
          apply map_count_eq_zero_of_lt
          intro kv hkv
          rcases List.mem_cons.mp hkv with rfl | hkv'
          · exact h1
          · exact lt_trans h1 (hk kv hkv')
        rw [hz]
        simp [map_count]
      · rw [if_neg h]
        conv_lhs => unfold map_count
        rw [if_neg h]
        simp
    · rw [if_neg h1]
      by_cases h2 : key = k
      · subst h2
        rw [if_pos rfl]
        by_cases h : o = key
        · simp [map_count, h]
        · simp [map_count, h]
      · rw [if_neg h2]
        by_cases h3 : o = k
        · have h4 : ¬ o = key := by omega
          simp [map_count, h3, h4]
          intro h5
          exact absurd h5.symm h2
        · have := ih hm
          simp only [map_count, if_neg h3]
          exact this

theorem indicator_step (P : Nat → Prop) [DecidablePred P] (offset bound o base c1 : Nat)
    (hb : offset < bound)
    (hc1 : c1 = base + if o = offset ∧ P offset then 1 else 0) :
    c1 + (if offset + 1 ≤ o ∧ o < bound ∧ P o then 1 else 0)
      = base + if offset ≤ o ∧ o < bound ∧ P o then 1 else 0 := by
  subst hc1
  by_cases ho : o = offset
  · subst ho
    by_cases hp : P o
    · simp [hp, hb]
    · simp [hp]
  · have h1 : (offset + 1 ≤ o) ↔ (offset ≤ o) := by omega
    simp only [ho, false_and, if_false, h1, Nat.add_zero]

theorem map_count_conditional_increment (m : List (Nat × Nat)) (offset o : Nat) (p : Prop)
    [Decidable p] (hs : m.Pairwise (fun a b => a.1 < b.1)) :
    map_count (if p then map_increment m offset else m) o
      = map_count m o + if o = offset ∧ p then 1 else 0 := by
  by_cases hp : p
  · rw [if_pos hp, map_count_map_increment m offset o hs]
    simp [hp]
  · rw [if_neg hp]
    simp [hp]

theorem conditional_increment_sorted (m : List (Nat × Nat)) (offset : Nat) (p : Prop)
    [Decidable p] (hs : m.Pairwise (fun a b => a.1 < b.1)) :
    (if p then map_increment m offset else m).Pairwise (fun a b => a.1 < b.1) := by
  split
  · exact map_increment_sorted _ _ hs
  · exact hs

theorem scan_offsets_counts (whitelist whitelist_rc : List (List Char)) (L : Nat)
    (sequence : List Char) :
    ∀ (fuel offset : Nat) (counts counts' : List (Nat × Nat) × List (Nat × Nat)),
      counts.1.Pairwise (fun a b => a.1 < b.1) → counts.2.Pairwise (fun a b => a.1 < b.1) →
      determine_transform.scan_offsets whitelist whitelist_rc L sequence fuel offset counts
        = .ok counts' →
      determine_transform.loop_bound sequence.length L ≤ fuel + offset →
      ∀ o,
        map_count counts'.1 o = map_count counts.1 o +
          (if offset ≤ o ∧ o < determine_transform.loop_bound sequence.length L ∧
              (sequence.drop o).take L ∈ whitelist then 1 else 0) ∧
        map_count counts'.2 o = map_count counts.2 o +
          (if offset ≤ o ∧ o < determine_transform.loop_bound sequence.length L ∧
              (sequence.drop o).take L ∈ whitelist_rc then 1 else 0) := by
  intro fuel
  induction fuel with
  | zero =>
    intro offset counts counts' _ _ h hf o
    cases h
    have hno : ¬ (offset ≤ o ∧ o < determine_transform.loop_bound sequence.length L) := by
      omega
    constructor
    · rw [if_neg (fun hc => hno ⟨hc.1, hc.2.1⟩)]; rfl
    · rw [if_neg (fun hc => hno ⟨hc.1, hc.2.1⟩)]; rfl
  | succ k ih =>
    intro offset counts counts' h1 h2 h hf o
    unfold determine_transform.scan_offsets at h
    by_cases hb : offset < determine_transform.loop_bound sequence.length L
    · by_cases ho : offset ≤ sequence.length
      · simp only [if_pos hb, substr_ok ho] at h
        obtain ⟨r1, r2⟩ := ih _ _ _
          (conditional_increment_sorted counts.1 offset _ h1)
          (conditional_increment_sorted counts.2 offset _ h2) h (by omega) o
        simp only at r1 r2
        constructor
        · rw [r1]
          exact indicator_step (fun o => (sequence.drop o).take L ∈ whitelist) offset _ o _ _
            hb (map_count_conditional_increment counts.1 offset o _ h1)
        · rw [r2]
          exact indicator_step (fun o => (sequence.drop o).take L ∈ whitelist_rc) offset _ o
            _ _ hb (map_count_conditional_increment counts.2 offset o _ h2)
      · simp only [if_pos hb, substr_error (Nat.not_le.mp ho)] at h
        cases h
    · simp only [if_neg hb] at h
      cases h
      have hno : ¬ (offset ≤ o ∧ o < determine_transform.loop_bound sequence.length L) := by
        omega
      constructor
      · rw [if_neg (fun hc => hno ⟨hc.1, hc.2.1⟩)]; rfl
      · rw [if_neg (fun hc => hno ⟨hc.1, hc.2.1⟩)]; rfl

theorem scan_record_counts (whitelist whitelist_rc : List (List Char)) (L : Nat)
    (record : FASTQRecord) (counts counts' : List (Nat × Nat) × List (Nat × Nat))
    (h1 : counts.1.Pairwise (fun a b => a.1 < b.1))
    (h2 : counts.2.Pairwise (fun a b => a.1 < b.1))
    (hL : L ≤ record.sequence.length + 1) (h64 : record.sequence.length + 1 < 2 ^ 64)
    (h : determine_transform.scan_record whitelist whitelist_rc L record counts
      = .ok counts') (o : Nat) :
    map_count counts'.1 o = map_count counts.1 o +
      (if o + L ≤ record.sequence.length ∧
          slice record.sequence o (o + L) ∈ whitelist then 1 else 0) ∧
    map_count counts'.2 o = map_count counts.2 o +
      (if o + L ≤ record.sequence.length ∧
          slice record.sequence o (o + L) ∈ whitelist_rc then 1 else 0) := by
  have hb := loop_bound_eq hL h64
  obtain ⟨r1, r2⟩ := scan_offsets_counts whitelist whitelist_rc L record.sequence _ _ _ _
    h1 h2 h (by rw [hb]; omega) o
  have hiff : (0 ≤ o ∧ o < determine_transform.loop_bound record.sequence.length L)
      ↔ o + L ≤ record.sequence.length := by
    rw [hb]; omega
  rw [r1, r2, drop_take_eq_slice]
  constructor
  · congr 1
    apply if_congr _ rfl rfl
    rw [← and_assoc, hiff]
  · congr 1
    apply if_congr _ rfl rfl
    rw [← and_assoc, hiff]

theorem scan_records_counts (whitelist whitelist_rc : List (List Char)) (L : Nat)
    (records : List FASTQRecord)
    (hL : ∀ r ∈ records, L ≤ r.sequence.length + 1 ∧ r.sequence.length + 1 < 2 ^ 64) :
    ∀ (counts counts' : List (Nat × Nat) × List (Nat × Nat)),
      counts.1.Pairwise (fun a b => a.1 < b.1) → counts.2.Pairwise (fun a b => a.1 < b.1) →
      determine_transform.scan_records whitelist whitelist_rc L records counts
        = .ok counts' →
      ∀ o,
        map_count counts'.1 o = map_count counts.1 o +
          records.countP (fun r => o + L ≤ r.sequence.length ∧
            slice r.sequence o (o + L) ∈ whitelist) ∧
        map_count counts'.2 o = map_count counts.2 o +
          records.countP (fun r => o + L ≤ r.sequence.length ∧
            slice r.sequence o (o + L) ∈ whitelist_rc) := by
  induction records with
  | nil =>
    intro counts counts' _ _ h o
    cases h
    simp
  | cons r rs ih =>
    intro counts counts' h1 h2 h o
    simp only [determine_transform.scan_records] at h
    cases hs : determine_transform.scan_record whitelist whitelist_rc L r counts with
    | error e => rw [hs] at h; cases h
    | ok c1 =>
      rw [hs] at h
      obtain ⟨hl1, hl2⟩ := hL r (List.mem_cons_self _ _)
      obtain ⟨s1, s2⟩ := scan_offsets_sorted _ _ _ _ _ _ _ _ h1 h2 hs
      obtain ⟨a1, a2⟩ := scan_record_counts whitelist whitelist_rc L r counts c1 h1 h2
        hl1 hl2 hs o
      obtain ⟨b1, b2⟩ := ih (fun x hx => hL x (List.mem_cons_of_mem _ hx)) c1 counts' s1 s2 h o
      rw [b1, b2, a1, a2, List.countP_cons, List.countP_cons]
      constructor
      · simp only [decide_eq_true_eq]
        omega
      · simp only [decide_eq_true_eq]
        omega

theorem barcode_length_eq_ok {whitelist : List (List Char)} {L : Nat}
    (h : determine_transform.barcode_length whitelist = .ok L) :
    whitelist ≠ [] ∧ ∀ b ∈ whitelist, b.length = L := by
  have hne : whitelist ≠ [] := by
    rintro rfl
    simp [determine_transform.barcode_length, determine_transform.barcode_lengths] at h
  obtain ⟨b0, hb0⟩ := List.exists_mem_of_ne_nil whitelist hne
  by_cases hu : ∀ b ∈ whitelist, b.length = b0.length
  · rw [barcode_length_uniform whitelist b0.length hne hu] at h
    cases h
    exact ⟨hne, hu⟩
  · push_neg at hu
    obtain ⟨b, hb, hbl⟩ := hu
    rw [barcode_length_mixed whitelist ⟨b, hb, b0, hb0, hbl⟩] at h
    cases h

theorem scan_eq_ok_parts {w f : List Char} {n : Int} {L : Nat}
    {counts : List (Nat × Nat) × List (Nat × Nat)}
    (h : determine_transform.scan w f n = .ok (L, counts)) :
    ∃ wrc, (∀ x, x ∈ wrc ↔ ∃ b ∈ read_whitelist w, reverse_complement b = .ok x) ∧
      (∀ b ∈ read_whitelist w, ∀ c ∈ b, is_nucleotide c) ∧
      determine_transform.barcode_length (read_whitelist w) = .ok L ∧
      determine_transform.scan_records (read_whitelist w) wrc L (read_fastq f n) ([], [])
        = .ok counts := by
  have hv : ∀ b ∈ read_whitelist w, ∀ c ∈ b, is_nucleotide c := by
    by_contra hcon
    push_neg at hcon
    unfold determine_transform.scan at h
    rw [rc_set_error _ hcon] at h
    cases h
  obtain ⟨wrc, hmem, hscan⟩ := scan_of_valid_whitelist w f n hv
  rw [hscan] at h
  refine ⟨wrc, hmem, hv, ?_⟩
  cases h2 : determine_transform.barcode_length (read_whitelist w) with
  | error e => simp only [h2] at h; cases h
  | ok L' =>
    cases h3 : determine_transform.scan_records (read_whitelist w) wrc L'
        (read_fastq f n) ([], []) with
    | error e => simp only [h2, h3] at h; cases h
    | ok c =>
      simp only [h2, h3] at h
      cases h
      exact ⟨rfl, h3⟩

/-- C16: after the scan of a sample whose sequences all have at least `L` characters
(and a size that fits `size_t`), for a whitelist of barcodes of length `L`, the
forward counter of every offset `o` is the number of sampled records with
`o + L ≤ len` whose window `[o, o+L)` is in the whitelist, and the reverse-complement
counter of `o` is the number of those whose window is the reverse complement of a
whitelist barcode; the scan returns whenever the whitelist holds valid symbols only.
A window in both sets is counted in both: "AATT" at offset 1 gives 1 and 1. -/
theorem counters_count_matching_windows (w f : List Char) (n : Int) (L : Nat)
    (hlen : ∀ r ∈ read_fastq f n, L ≤ r.sequence.length ∧ r.sequence.length + 1 < 2 ^ 64) :
    (read_whitelist w ≠ [] → (∀ b ∈ read_whitelist w, b.length = L) →
      (∀ b ∈ read_whitelist w, ∀ c ∈ b, is_nucleotide c) →
      ∃ counts, determine_transform.scan w f n = .ok (L, counts)) ∧
    (∀ counts, determine_transform.scan w f n = .ok (L, counts) →
      (∀ b ∈ read_whitelist w, b.length = L) ∧
      ∀ o,
        map_count counts.1 o
          = (read_fastq f n).countP (fun r => o + L ≤ r.sequence.length ∧
              slice r.sequence o (o + L) ∈ read_whitelist w) ∧
        map_count counts.2 o
          = (read_fastq f n).countP (fun r => o + L ≤ r.sequence.length ∧
              ∃ b ∈ read_whitelist w,
                reverse_complement b = .ok (slice r.sequence o (o + L)))) ∧
    determine_transform.scan palindrome_whitelist_scenario palindrome_reads_scenario 10000
      = .ok (4, ([(1, 1)], [(1, 1)])) := by
  refine ⟨fun hne hL hv => ?_, fun counts hs => ?_, rfl⟩
  · obtain ⟨wrc, _, hscan⟩ := scan_of_valid_whitelist w f n hv
    rw [barcode_length_uniform _ L hne hL] at hscan
    obtain ⟨c, hc⟩ := scan_records_returns (read_whitelist w) wrc L (read_fastq f n)
      (fun r hr => by have := (hlen r hr).1; omega) ([], [])
    simp only [hc] at hscan
    exact ⟨c, hscan⟩
  · obtain ⟨wrc, hmem, _, hbl, hrec⟩ := scan_eq_ok_parts hs
    refine ⟨(barcode_length_eq_ok hbl).2, fun o => ?_⟩
    obtain ⟨r1, r2⟩ := scan_records_counts (read_whitelist w) wrc L (read_fastq f n)
      (fun r hr => ⟨by have := (hlen r hr).1; omega, (hlen r hr).2⟩)
      ([], []) counts List.Pairwise.nil List.Pairwise.nil hrec o
    simp only [map_count, Nat.zero_add] at r1 r2
    refine ⟨r1, ?_⟩
    rw [r2]
    apply List.countP_congr
    intro r _
    simp only [decide_eq_true_eq, hmem]

theorem counters_count_matching_windows_witness :
    (read_whitelist palindrome_whitelist_scenario ≠ [] →
      (∀ b ∈ read_whitelist palindrome_whitelist_scenario, b.length = 4) →
      (∀ b ∈ read_whitelist palindrome_whitelist_scenario, ∀ c ∈ b, is_nucleotide c) →
      ∃ counts, determine_transform.scan palindrome_whitelist_scenario
        palindrome_reads_scenario 10000 = .ok (4, counts)) ∧
    (∀ counts, determine_transform.scan palindrome_whitelist_scenario
        palindrome_reads_scenario 10000 = .ok (4, counts) →
      (∀ b ∈ read_whitelist palindrome_whitelist_scenario, b.length = 4) ∧
      ∀ o,
        map_count counts.1 o
          = (read_fastq palindrome_reads_scenario 10000).countP
              (fun r => o + 4 ≤ r.sequence.length ∧
                slice r.sequence o (o + 4) ∈ read_whitelist palindrome_whitelist_scenario) ∧
        map_count counts.2 o
          = (read_fastq palindrome_reads_scenario 10000).countP
              (fun r => o + 4 ≤ r.sequence.length ∧
                ∃ b ∈ read_whitelist palindrome_whitelist_scenario,
                  reverse_complement b = .ok (slice r.sequence o (o + 4)))) ∧
    determine_transform.scan palindrome_whitelist_scenario palindrome_reads_scenario 10000
      = .ok (4, ([(1, 1)], [(1, 1)])) :=
  counters_count_matching_windows palindrome_whitelist_scenario palindrome_reads_scenario
    10000 4 (by decide)

/-! ## Detector: the smallest offset with the greatest count -/

theorem mem_of_map_count_ne_zero (m : List (Nat × Nat)) (o : Nat) (h : map_count m o ≠ 0) :
    (o, map_count m o) ∈ m := by
  induction m with
  | nil => exact absurd rfl h
  | cons a m ih =>
    obtain ⟨k, v⟩ := a
    unfold map_count at h ⊢
    by_cases hk : o = k
    · rw [if_pos hk]
      rw [hk]
      exact List.mem_cons_self _ _
    · rw [if_neg hk] at h ⊢
      exact List.mem_cons_of_mem _ (ih h)

theorem select_smallest (rc : Bool) (m : List (Nat × Nat)) (best : Best)
    (hs : m.Pairwise (fun a b => a.1 < b.1))
    (hlt : best.best_match_count < max_value m) :
    ∀ k, (k, max_value m) ∈ m → (determine_transform.select rc m best).best_offset ≤ k := by
  induction m generalizing best with
  | nil => simp [max_value] at hlt
  | cons a m ih =>
    obtain ⟨k0, v0⟩ := a
    rw [List.pairwise_cons] at hs
    obtain ⟨hk0, hm⟩ := hs
    intro k hk
    unfold determine_transform.select
    unfold max_value at hlt hk
    by_cases hv : v0 > best.best_match_count
    · rw [if_pos hv]
      by_cases hmv : v0 < max_value m
      · rw [max_eq_right (le_of_lt hmv)] at hk
        rcases List.mem_cons.mp hk with heq | hmem
        · cases heq
          omega
        · exact ih _ hm hmv k hmem
      · have hmv' : max_value m ≤ v0 := Nat.not_lt.mp hmv
        rw [(select_spec rc m { best_offset := k0, best_rc := rc, best_match_count := v0 }).2
          hmv']
        rw [max_eq_left hmv'] at hk
        rcases List.mem_cons.mp hk with heq | hmem
        · cases heq
          exact le_refl _
        · exact le_of_lt (hk0 _ hmem)
    · rw [if_neg hv]
      have hv' : v0 ≤ best.best_match_count := Nat.not_lt.mp hv
      have hmv : best.best_match_count < max_value m := by
        rcases lt_max_iff.mp hlt with h' | h'
        · omega
        · exact h'
      rw [max_eq_right (by omega)] at hk
      rcases List.mem_cons.mp hk with heq | hmem
      · cases heq
        omega
      · exact ih best hm hmv k hmem

theorem first_selection_count (m : List (Nat × Nat)) :
    (determine_transform.select false m
      { best_offset := 0, best_rc := false, best_match_count := 0 }).best_match_count
      = max_value m := by
  obtain ⟨s1, s2⟩ := select_spec false m
    { best_offset := 0, best_rc := false, best_match_count := 0 }
  by_cases hpos : 0 < max_value m
  · exact (s1 hpos).2.1
  · have h0 : max_value m = 0 := by omega
    rw [s2 (by simp [h0])]
    exact h0.symm

theorem best_smallest (counts : List (Nat × Nat) × List (Nat × Nat))
    (h1 : counts.1.Pairwise (fun a b => a.1 < b.1))
    (h2 : counts.2.Pairwise (fun a b => a.1 < b.1)) :
    (max_value counts.2 ≤ max_value counts.1 →
      ∀ o, map_count counts.1 o = max_value counts.1 →
        (determine_transform.best counts).best_offset ≤ o) ∧
    (max_value counts.1 < max_value counts.2 →
      ∀ o, map_count counts.2 o = max_value counts.2 →
        (determine_transform.best counts).best_offset ≤ o) := by
  have hc := first_selection_count counts.1
  unfold determine_transform.best
  constructor
  · intro hle o ho
    rw [(select_spec true counts.2 _).2 (by rw [hc]; exact hle)]
    by_cases hpos : 0 < max_value counts.1
    · apply select_smallest false counts.1 _ h1 hpos o
      rw [← ho]
      exact mem_of_map_count_ne_zero _ _ (by omega)
    · rw [(select_spec false counts.1 _).2 (by simp; omega)]
      exact Nat.zero_le _
  · intro hlt o ho
    apply select_smallest true counts.2 _ h2 (by rw [hc]; exact hlt) o
    rw [← ho]
    exact mem_of_map_count_ne_zero _ _ (by omega)

/-- C18: whenever the detector returns, the returned offset attains the maximum match
count of the returned orientation and no smaller offset does: among the offsets with
that maximum count it is the smallest.  With the barcode "AACC" at the offsets 0 and 4
of the only sampled sequence the detector returns offset 0. -/
theorem returned_offset_is_smallest_maximal (w f : List Char) (n : Int)
    (t : Nat × Nat × Nat) (h : determine_transform w f n = .ok t) :
    (∃ L counts,
      determine_transform.scan w f n = .ok (L, counts) ∧
      (t.2.2 = 0 →
        is_max_count counts.1 (map_count counts.1 t.1) ∧
        ∀ o, is_max_count counts.1 (map_count counts.1 o) → t.1 ≤ o) ∧
      (t.2.2 ≠ 0 →
        is_max_count counts.2 (map_count counts.2 t.1) ∧
        ∀ o, is_max_count counts.2 (map_count counts.2 o) → t.1 ≤ o)) ∧
    determine_transform whitelist_scenario detection_scenario_twice 10000
      = .ok (0, 4, 0) := by
  refine ⟨?_, rfl⟩
  obtain ⟨L, counts, hs, rfl⟩ := determine_transform_eq_ok h
  obtain ⟨s1, s2, _⟩ := scan_eq_ok hs
  obtain ⟨b1, b2⟩ := best_spec counts s1 s2
  obtain ⟨m1, m2⟩ := best_smallest counts s1 s2
  refine ⟨L, counts, hs, ?_⟩
  by_cases hlt : max_value counts.1 < max_value counts.2
  · obtain ⟨r, r2⟩ := b2 hlt
    have hflag : (if (determine_transform.best counts).best_rc then 1 else 0 : Nat) = 1 := by
      rw [r]; rfl
    refine ⟨fun h0 => ?_, fun _ => ⟨?_, fun o ho => ?_⟩⟩
    · have h0' : (if (determine_transform.best counts).best_rc then 1 else 0 : Nat) = 0 := h0
      omega
    · show is_max_count counts.2
        (map_count counts.2 (determine_transform.best counts).best_offset)
      rw [r2]
      exact is_max_count_max_value _ s2
    · exact m2 hlt o (is_max_count_unique ho (is_max_count_max_value _ s2))
  · obtain ⟨r, r2⟩ := b1 (Nat.not_lt.mp hlt)
    have hflag : (if (determine_transform.best counts).best_rc then 1 else 0 : Nat) = 0 := by
      rw [r]; rfl
    refine ⟨fun _ => ⟨?_, fun o ho => ?_⟩, fun h0 => absurd hflag h0⟩
    · show is_max_count counts.1
        (map_count counts.1 (determine_transform.best counts).best_offset)
      rw [r2]
      exact is_max_count_max_value _ s1
    · exact m1 (Nat.not_lt.mp hlt) o (is_max_count_unique ho (is_max_count_max_value _ s1))

theorem returned_offset_is_smallest_maximal_witness :
    (∃ L counts,
      determine_transform.scan whitelist_scenario detection_scenario_twice 10000
        = .ok (L, counts) ∧
      ((0, 4, 0).2.2 = 0 →
        is_max_count counts.1 (map_count counts.1 (0, 4, 0).1) ∧
        ∀ o, is_max_count counts.1 (map_count counts.1 o) → (0, 4, 0).1 ≤ o) ∧
      ((0, 4, 0).2.2 ≠ 0 →
        is_max_count counts.2 (map_count counts.2 (0, 4, 0).1) ∧
        ∀ o, is_max_count counts.2 (map_count counts.2 o) → (0, 4, 0).1 ≤ o)) ∧
    determine_transform whitelist_scenario detection_scenario_twice 10000
      = .ok (0, 4, 0) :=
  returned_offset_is_smallest_maximal whitelist_scenario detection_scenario_twice 10000
    (0, 4, 0) rfl

/-! ## Detector and transform together -/

theorem reverse_complement_twice {s t : List Char} (h : reverse_complement s = .ok t) :
    reverse_complement t = .ok s := by
  obtain ⟨hv, rfl⟩ := reverse_complement_eq_ok h
  have hv' : ∀ c ∈ s.reverse.map complement_char, is_nucleotide c := by
    intro c hc
    obtain ⟨d, hd, rfl⟩ := List.mem_map.mp hc
    exact (nucleotide_complements_of_is_nucleotide (hv d (List.mem_reverse.mp hd))).2.1
  rw [reverse_complement_ok _ hv', ← List.map_reverse, List.reverse_reverse,
    map_complement_char_involutive s hv]

theorem window_length_eq {sequence : List Char} {offset L : Nat} (ho : offset ≤ sequence.length)
    (h : ((sequence.drop offset).take L).length = L) : offset + L ≤ sequence.length := by
  simp only [List.length_take, List.length_drop] at h
  omega

theorem transform_yields_member_forward (whitelist : List (List Char)) (offset L : Nat)
    (record : FASTQRecord) (hL : ∀ b ∈ whitelist, b.length = L)
    (hq : record.sequence.length ≤ record.quality.length) :
    transform_yields_member whitelist offset L false record = true ↔
      offset + L ≤ record.sequence.length ∧
        slice record.sequence offset (offset + L) ∈ whitelist := by
  unfold transform_yields_member
  by_cases ho : offset ≤ record.sequence.length
  · rw [transform_forward ho (le_trans ho hq)]
    simp only [decide_eq_true_eq]
    constructor
    · intro hm
      have := window_length_eq ho (hL _ hm)
      exact ⟨this, by rw [← drop_take_eq_slice]; exact hm⟩
    · rintro ⟨_, hm⟩
      rw [drop_take_eq_slice]
      exact hm
  · have hlt : record.sequence.length < offset := Nat.not_le.mp ho
    simp only [FASTQRecord.transform, substr_error hlt]
    constructor
    · intro hc; cases hc
    · rintro ⟨h1, _⟩; omega

theorem transform_yields_member_reverse (whitelist : List (List Char)) (offset L : Nat)
    (record : FASTQRecord) (hL : ∀ b ∈ whitelist, b.length = L)
    (hq : record.sequence.length ≤ record.quality.length) :
    transform_yields_member whitelist offset L true record = true ↔
      offset + L ≤ record.sequence.length ∧
        ∃ b ∈ whitelist,
          reverse_complement b = .ok (slice record.sequence offset (offset + L)) := by
  unfold transform_yields_member
  by_cases ho : offset ≤ record.sequence.length
  · rw [transform_reverse ho (le_trans ho hq)]
    cases hrc : reverse_complement ((record.sequence.drop offset).take L) with
    | error e =>
      simp only
      constructor
      · intro hc; cases hc
      · rintro ⟨_, b, _, hb⟩
        rw [← drop_take_eq_slice] at hb
        rw [reverse_complement_twice hb] at hrc
        cases hrc
    | ok s =>
      simp only [decide_eq_true_eq]
      have hlen : s.length = ((record.sequence.drop offset).take L).length := by
        obtain ⟨_, rfl⟩ := reverse_complement_eq_ok hrc
        simp
      constructor
      · intro hm
        have hw := window_length_eq ho (by rw [← hlen]; exact hL _ hm)
        refine ⟨hw, s, hm, ?_⟩
        rw [← drop_take_eq_slice]
        exact reverse_complement_twice hrc
      · rintro ⟨_, b, hb, hbrc⟩
        rw [← drop_take_eq_slice] at hbrc
        rw [reverse_complement_twice hbrc] at hrc
        cases hrc
        exact hb
  · have hlt : record.sequence.length < offset := Nat.not_le.mp ho
    simp only [FASTQRecord.transform, substr_error hlt]
    constructor
    · intro hc; cases hc
    · rintro ⟨h1, _⟩; omega

/-- C17 (counterexample): with the whitelist {"AACC"} and a sampled record with the
sequence "NNAACCNN" and the one-character quality "I", the detector returns (2, 4, 0)
with a winning match count of 1, but `transform(2, 4, false)` throws on that record
(`substr` on the quality), so no sampled record transforms into a whitelist member. -/
theorem detection_counts_record_whose_transform_throws :
    determine_transform whitelist_scenario detection_scenario_short_quality 10000
      = .ok (2, 4, 0) ∧
    determine_transform.scan whitelist_scenario detection_scenario_short_quality 10000
      = .ok (4, ([(2, 1)], [])) ∧
    (read_fastq detection_scenario_short_quality 10000).map
        (fun r => r.transform 2 4 false) = [.error .out_of_range_substr] ∧
    (read_fastq detection_scenario_short_quality 10000).countP
        (transform_yields_member (read_whitelist whitelist_scenario) 2 4 false) = 0 :=
  ⟨rfl, rfl, rfl, rfl⟩

/-- C17 (amended): for a sample whose sequences all have at least `L` characters (and
a size that fits `size_t`) and whose quality strings are no shorter than their
sequences, whenever the detector returns `(o, L, rc)` the number of sampled records
whose transform under `(o, L, rc)` succeeds and leaves a whitelist member is the
winning match count, the greater of the maximum forward and the maximum
reverse-complement count; the detector does return when the whitelist is not empty
and holds only barcodes of length `L` made of valid symbols. -/
theorem detection_sound_for_transform (w f : List Char) (n : Int) (L : Nat)
    (hlen : ∀ r ∈ read_fastq f n, L ≤ r.sequence.length ∧ r.sequence.length + 1 < 2 ^ 64)
    (hq : ∀ r ∈ read_fastq f n, r.sequence.length ≤ r.quality.length) :
    (read_whitelist w ≠ [] → (∀ b ∈ read_whitelist w, b.length = L) →
      (∀ b ∈ read_whitelist w, ∀ c ∈ b, is_nucleotide c) →
      ∃ o rc, determine_transform w f n = .ok (o, L, rc)) ∧
    (∀ o rc, determine_transform w f n = .ok (o, L, rc) →
      ∃ counts forward_max rc_max,
        determine_transform.scan w f n = .ok (L, counts) ∧
        is_max_count counts.1 forward_max ∧ is_max_count counts.2 rc_max ∧
        (read_fastq f n).countP
            (transform_yields_member (read_whitelist w) o L (rc != 0))
          = max forward_max rc_max) := by
  constructor
  · intro hne hL hv
    exact (determine_transform_uniform w f n L hne hv hL).2.2
      (fun r hr => by have := (hlen r hr).1; omega)
  · intro o rc h
    obtain ⟨L', counts, hs, ht⟩ := determine_transform_eq_ok h
    have hL' : L' = L := by
      have := congrArg (fun x => x.2.1) ht
      simp only at this
      exact this.symm
    subst hL'
    obtain ⟨s1, s2, _⟩ := scan_eq_ok hs
    obtain ⟨wrc, hmem, _, hbl, hrec⟩ := scan_eq_ok_parts hs
    have hL := (barcode_length_eq_ok hbl).2
    obtain ⟨b1, b2⟩ := best_spec counts s1 s2
    have hcounts := scan_records_counts (read_whitelist w) wrc L' (read_fastq f n)
      (fun r hr => ⟨by have := (hlen r hr).1; omega, (hlen r hr).2⟩)
      ([], []) counts List.Pairwise.nil List.Pairwise.nil hrec
    have ho : o = (determine_transform.best counts).best_offset := by
      have := congrArg (fun x => x.1) ht
      exact this
    have hrc : rc = if (determine_transform.best counts).best_rc then 1 else 0 := by
      have := congrArg (fun x => x.2.2) ht
      exact this
    refine ⟨counts, max_value counts.1, max_value counts.2, hs,
      is_max_count_max_value _ s1, is_max_count_max_value _ s2, ?_⟩
    by_cases hlt : max_value counts.1 < max_value counts.2
    · obtain ⟨r, r2⟩ := b2 hlt
      have hflag : (rc != 0) = true := by rw [hrc, r]; rfl
      rw [hflag, max_eq_right (le_of_lt hlt), ← r2, ← ho, (hcounts o).2]
      simp only [map_count, Nat.zero_add]
      apply List.countP_congr
      intro x hx
      rw [transform_yields_member_reverse _ _ _ _ hL (hq x hx)]
      simp only [decide_eq_true_eq, hmem]
    · obtain ⟨r, r2⟩ := b1 (Nat.not_lt.mp hlt)
      have hflag : (rc != 0) = false := by rw [hrc, r]; rfl
      rw [hflag, max_eq_left (Nat.not_lt.mp hlt), ← r2, ← ho, (hcounts o).1]
      simp only [map_count, Nat.zero_add]
      apply List.countP_congr
      intro x hx
      rw [transform_yields_member_forward _ _ _ _ hL (hq x hx)]
      simp only [decide_eq_true_eq]

theorem detection_sound_for_transform_witness :
    (read_whitelist whitelist_scenario ≠ [] →
      (∀ b ∈ read_whitelist whitelist_scenario, b.length = 4) →
      (∀ b ∈ read_whitelist whitelist_scenario, ∀ c ∈ b, is_nucleotide c) →
      ∃ o rc, determine_transform whitelist_scenario detection_scenario_reverse 10000
        = .ok (o, 4, rc)) ∧
    (∀ o rc, determine_transform whitelist_scenario detection_scenario_reverse 10000
        = .ok (o, 4, rc) →
      ∃ counts forward_max rc_max,
        determine_transform.scan whitelist_scenario detection_scenario_reverse 10000
          = .ok (4, counts) ∧
        is_max_count counts.1 forward_max ∧ is_max_count counts.2 rc_max ∧
        (read_fastq detection_scenario_reverse 10000).countP
            (transform_yields_member (read_whitelist whitelist_scenario) o 4 (rc != 0))
          = max forward_max rc_max) :=
  detection_sound_for_transform whitelist_scenario detection_scenario_reverse 10000 4
    (by decide) (by decide)

end TransformAndCountBarcodes
